import Mathlib

set_option maxRecDepth 10000

/-!
Verification of the m3api-query incremental response aggregation engine.

The JavaScript source (index.js) is embedded shallowly:

* JavaScript values that can occur in API response documents are modelled by
  the inductive type JVal (null, booleans, numbers, strings, arrays, objects).
  A number value carries the exact integer written at its source (a caller
  literal or a JSON document); a JS number, however, is an IEEE 754 double,
  so every observation of a number in the source code goes through
  Number.prototype.toString, which the embedding models faithfully as
  jsNumToString: the written integer is first rounded to the nearest double
  (53-bit significand, ties to even), matching the rounding the runtime
  performs when the literal is parsed, and the double is then printed as the
  shortest decimal that rounds back to it (closest to its value, ties to an
  even significand), per the ECMAScript Number::toString algorithm. The
  modelled regime is integer-valued doubles below 10^21, which covers every
  MediaWiki id and is the regime in which JS prints plain decimal notation.
* Objects are association lists in property insertion order, as iterated by
  Object.entries; assignment to an existing key keeps its position, assignment
  to a fresh key appends (JS property order semantics).
* Functions that can throw return Except String; the error string is built
  exactly as the source builds its Error messages.
* The two imperative loops (the redirect do/while loop of
  getResponsePageByTitle and the recursive walk of mergeObjects) are embedded
  with an explicit fuel parameter so that every definition is structurally
  recursive and computable by the kernel; the canonical entry points pass a
  fuel that is proved sufficient, and the out-of-fuel result is proved
  unreachable.
* The Set and Array values held by caller-supplied request params are modelled
  with an explicit heap of references, so that the no-mutation guarantee of
  the params-shaping helpers is a provable frame property.
-/

namespace M3ApiQuery

/-- A JavaScript (JSON-shaped) value as it occurs in API response documents. -/
inductive JVal where
  | vNull : JVal
  | vBool (b : Bool) : JVal
  | vNum (n : Int) : JVal
  | vStr (s : String) : JVal
  | vArr (elems : List JVal) : JVal
  | vObj (fields : List (String × JVal)) : JVal

/-- Fields of an object, in property insertion order. -/
abbrev JFields := List (String × JVal)

mutual

/-- Nesting depth of a value, used to provide sufficient fuel to the
embedding of mergeObjects. -/
def jDepth : JVal → Nat
  | .vNull => 0
  | .vBool _ => 0
  | .vNum _ => 0
  | .vStr _ => 0
  | .vArr xs => 1 + jDepthList xs
  | .vObj fs => 1 + jDepthFields fs

/-- Nesting depth of the elements of an array. -/
def jDepthList : List JVal → Nat
  | [] => 0
  | x :: xs => max (jDepth x) (jDepthList xs)

/-- Nesting depth of the values of an object's field list. -/
def jDepthFields : List (String × JVal) → Nat
  | [] => 0
  | (_, v) :: xs => max (jDepth v) (jDepthFields xs)

end

/-- Embeds the JS typeof operator (on JVal values; note typeof null is "object"). -/
def jsTypeof : JVal → String
  | .vNull => "object"
  | .vBool _ => "boolean"
  | .vNum _ => "number"
  | .vStr _ => "string"
  | .vArr _ => "object"
  | .vObj _ => "object"

/-- Embeds Array.isArray from index.js (const isArray = Array.isArray). -/
def isArray : JVal → Bool
  | .vArr _ => true
  | _ => false

/-- Embeds isObject from index.js:
typeof value is "object", value is not null, and value is not an array. -/
def isObject : JVal → Bool
  | .vObj _ => true
  | _ => false

/-- Embeds JS strict equality (===) restricted to the positions where
mergeObjects evaluates it: primitives compare by value; a comparison
involving a container is reference equality, which is false there because
the base and incremental containers of mergeObjects are distinct live
objects (the case of two objects or two arrays is already consumed by the
earlier branches of mergeObjects). -/
def jsStrictEq : JVal → JVal → Bool
  | .vNull, .vNull => true
  | .vBool a, .vBool b => a == b
  | .vNum a, .vNum b => a == b
  | .vStr a, .vStr b => a == b
  | _, _ => false

/-- Bit length by repeated halving, with enough fuel for every finite
double (fewer than 1100 bits). -/
def bitLenF : Nat → Nat → Nat
  | 0, _ => 0
  | fuel + 1, n => if n = 0 then 0 else bitLenF fuel (n / 2) + 1

/-- The bit length of a natural number. -/
def bitLen (n : Nat) : Nat := bitLenF 1100 n

/-- Rounds an integer to the nearest IEEE 754 double (53-bit significand,
round to nearest, ties to even): the rounding a JS runtime performs when an
integer literal or JSON number beyond 2^53 is parsed. -/
def roundToDouble (n : Nat) : Nat :=
  let b := bitLen n
  if b ≤ 53 then n
  else
    let e := b - 53
    let q := n / 2 ^ e
    let r := n % 2 ^ e
    let half := 2 ^ (e - 1)
    if r < half then q * 2 ^ e
    else if half < r then (q + 1) * 2 ^ e
    else if q % 2 = 0 then q * 2 ^ e
    else (q + 1) * 2 ^ e

/-- The number of trailing zero digits of a decimal representation. -/
def trailingZeroDigitsF : Nat → Nat → Nat
  | 0, _ => 0
  | fuel + 1, n =>
    if n != 0 && n % 10 == 0 then trailingZeroDigitsF fuel (n / 10) + 1 else 0

/-- Trailing zero digits, with enough fuel for every finite double (fewer
than 400 decimal digits). -/
def trailingZeroDigits (n : Nat) : Nat := trailingZeroDigitsF 400 n

/-- The number of decimal digits. -/
def decDigitsF : Nat → Nat → Nat
  | 0, _ => 0
  | fuel + 1, n => if n = 0 then 0 else decDigitsF fuel (n / 10) + 1

/-- Decimal digit count, with enough fuel for every finite double. -/
def decDigits (n : Nat) : Nat := decDigitsF 400 n

/-- The number of significant decimal digits (digits up to the trailing
zeros), the quantity the ECMAScript Number::toString algorithm minimizes. -/
def sigDigits (n : Nat) : Nat := decDigits n - trailingZeroDigits n

/-- Distance between two naturals. -/
def natDist (a b : Nat) : Nat := if a ≤ b then b - a else a - b

/-- The ECMAScript Number::toString preference order among decimal
candidates for a double d: fewer significant digits first, then closer to
d, then an even significand. -/
def betterNum (d a b : Nat) : Bool :=
  if sigDigits b < sigDigits a then true
  else if sigDigits a < sigDigits b then false
  else if natDist b d < natDist a d then true
  else if natDist a d < natDist b d then false
  else (b / 10 ^ trailingZeroDigits b) % 2 == 0

/-- Prints an integer-valued double as JS Number.prototype.toString does:
the shortest decimal that rounds back to the double, chosen among the
integers within half an ulp (the only ones the rounding can map to d),
preferring proximity to d and then an even significand. Below 2^53 every
integer is its own unique preimage, so the exact decimal is printed. -/
def doubleToString (d : Nat) : String :=
  if bitLen d ≤ 53 then Nat.repr d
  else
    let e := bitLen d - 53
    let h := 2 ^ (e - 1)
    let lo := d - h
    let cands := ((List.range (2 * h + 1)).map (fun i => lo + i)).filter
      (fun m => roundToDouble m == d)
    Nat.repr (cands.foldl (fun a m => if betterNum d a m then m else a) d)

/-- The end-to-end observation of a numeric value written as the integer n:
the runtime rounds it to a double at parse time and toString prints the
shortest round-trip decimal. -/
def jsNumToString (n : Int) : String :=
  if n < 0 then "-" ++ doubleToString (roundToDouble n.natAbs)
  else doubleToString (roundToDouble n.natAbs)

/-- String interpolation of a primitive JS value, as in a template literal. -/
def jsPrimString : JVal → String
  | .vNull => "null"
  | .vBool b => if b then "true" else "false"
  | .vNum n => jsNumToString n
  | .vStr s => s
  | .vArr _ => ""
  | .vObj _ => "[object Object]"

/-- Embeds hasOwnProperty on an object's field list. -/
def hasKey (fields : JFields) (key : String) : Bool :=
  fields.any (fun kv => kv.1 == key)

/-- Embeds JS property assignment obj[key] = v: an existing key keeps its
position in insertion order, a fresh key is appended at the end. -/
def setKey : JFields → String → JVal → JFields
  | [], key, v => [(key, v)]
  | (k, w) :: rest, key, v =>
    if k == key then (k, v) :: rest else (k, w) :: setKey rest key v

/-- Embeds the format helper inside mergeValues of index.js: null, arrays
and objects print as their shape name, other values as typeof plus their
string interpolation. -/
def format : JVal → String
  | .vNull => "null"
  | .vArr _ => "array"
  | .vObj _ => "object"
  | v => jsTypeof v ++ " (" ++ jsPrimString v ++ ")"

/-- Embeds mergeValues from index.js, the default conflict resolver:
if both values are strings or both are numbers it keeps the base value,
otherwise it throws an Error naming the path and both value shapes. -/
def mergeValues (base incremental : JVal) (path : String) : Except String JVal :=
  let baseType := jsTypeof base
  if baseType == jsTypeof incremental &&
      (baseType == "string" || baseType == "number") then
    .ok base
  else
    .error ("Error merging objects from two responses at " ++ path ++
      ": Cannot merge " ++ format base ++ " with " ++ format incremental)

/-- The type of the mergeValues callback as consumed by mergeObjects:
arguments are baseValue, incrementalValue, path, the base container and the
key (the default resolver ignores the last two). -/
abbrev MergeFn := JVal → JVal → String → JFields → String → Except String JVal

/-- The default resolver in callback form. -/
def defaultMergeFn : MergeFn :=
  fun base incremental path _ _ => mergeValues base incremental path

/-- The field list of a value known to be an object. -/
def objFields : JVal → JFields
  | .vObj fs => fs
  | _ => []

/-- The element list of a value known to be an array. -/
def arrElems : JVal → List JVal
  | .vArr xs => xs
  | _ => []

/-- Embeds the loop of mergeObjects from index.js over Object.entries of the
incremental object, threading the mutated base field list; the recursive
merge of two nested objects is delegated to the recur argument (tied by
mergeEntriesF below). -/
def mergeEntriesGo (mv : MergeFn)
    (recur : JFields → JFields → String → Except String JFields) :
    JFields → JFields → String → Except String JFields
  | base, [], _ => .ok base
  | base, (key, incrementalValue) :: rest, basePath =>
    match base.lookup key with
    | none =>
      -- key not in base: base[key] = incrementalValue
      mergeEntriesGo mv recur (setKey base key incrementalValue) rest basePath
    | some baseValue =>
      let path := if basePath == "" then key else basePath ++ "." ++ key
      if isObject baseValue && isObject incrementalValue then
        -- both objects: recurse
        match recur (objFields baseValue) (objFields incrementalValue) path with
        | .ok mergedFields =>
          mergeEntriesGo mv recur (setKey base key (.vObj mergedFields)) rest basePath
        | .error e => .error e
      else if isArray baseValue && isArray incrementalValue then
        -- both arrays: base[key] = [...baseValue, ...incrementalValue]
        mergeEntriesGo mv recur
          (setKey base key (.vArr (arrElems baseValue ++ arrElems incrementalValue)))
          rest basePath
      else if jsStrictEq baseValue incrementalValue then
        -- identical values: skip
        mergeEntriesGo mv recur base rest basePath
      else
        -- base[key] = mergeValues(baseValue, incrementalValue, path, base, key)
        match mv baseValue incrementalValue path base key with
        | .ok v => mergeEntriesGo mv recur (setKey base key v) rest basePath
        | .error e => .error e

/-- Embeds mergeObjects from index.js with fuel bounding the object nesting
depth; running out of fuel is unreachable for the fuel passed by the
canonical wrapper mergeObjects (theorem mergeEntriesF_fuel below). -/
def mergeEntriesF (mv : MergeFn) :
    Nat → JFields → JFields → String → Except String JFields
  | 0, _, _, _ => .error "out of fuel (unreachable)"
  | fuel + 1, base, incremental, basePath =>
    mergeEntriesGo mv (mergeEntriesF mv fuel) base incremental basePath

/-- Embeds mergeObjects from index.js on the field lists of the base and
incremental objects, with fuel that exceeds the nesting depth. -/
def mergeObjects (mv : MergeFn) (base incremental : JFields)
    (basePath : String := "") : Except String JFields :=
  mergeEntriesF mv (jDepthFields incremental + 1) base incremental basePath

/-! Response documents and the extraction functions. -/

/-- Embeds a normalized or redirects entry of a response, a pair of a source
title and a target title (the JS field names are from and to; from is a Lean
keyword, hence the T suffix). -/
structure Redirect where
  fromT : String
  toT : String
deriving DecidableEq

/-- The two storage shapes of query.pages: a formatversion=2 array of page
objects, or a formatversion=1 object mapping page-id strings to page
objects. -/
inductive PagesCollection where
  | arr (ps : List JVal)
  | map (kvs : List (String × JVal))

/-- Embeds the query part of a response; a missing field is the absent
(undefined) JS property. -/
structure Query where
  pages : Option PagesCollection := none
  normalized : Option (List Redirect) := none
  redirects : Option (List Redirect) := none
  badrevids : Option (List (String × JVal)) := none

/-- Embeds a response document; batchcomplete stores the field's value when
the field is present (true in formatversion=2, the empty string in
formatversion=1). The continuation token is not modelled: continuation is
modelled by feeding the drivers the list of successive responses. -/
structure Response where
  query : Option Query := none
  batchcomplete : Option JVal := none

/-- Embeds property access on a page or revision object; undefined (absent
property, or access on a non-object) is none. -/
def jGet (v : JVal) (key : String) : Option JVal :=
  match v with
  | .vObj fs => fs.lookup key
  | _ => none

/-- Embeds JS truthiness of a value. -/
def jsTruthy : JVal → Bool
  | .vNull => false
  | .vBool b => b
  | .vNum n => n != 0
  | .vStr s => s ≠ ""
  | .vArr _ => true
  | .vObj _ => true

/-- Embeds calling toString() on a property value: throws on null, yields
the shortest round-trip decimal of a number, the string itself for a string.
Containers are stringified one level deep (page and revision ids are
strings or numbers, so the container cases are never exercised). -/
def jsToString : JVal → Except String String
  | .vNull => .error "TypeError: Cannot read properties of null (reading toString)"
  | .vBool b => .ok (if b then "true" else "false")
  | .vNum n => .ok (jsNumToString n)
  | .vStr s => .ok s
  | .vArr xs => .ok (String.intercalate "," (xs.map jsPrimString))
  | .vObj _ => .ok "[object Object]"

/-- Embeds the normalization of query.pages to a list of page objects:
query.pages || [] followed by Object.values when it is not an array. -/
def pagesList : Option PagesCollection → List JVal
  | none => []
  | some (.arr ps) => ps
  | some (.map kvs) => kvs.map (fun kv => kv.2)

/-- Embeds the normalization scan of getResponsePageByTitle: the first
normalized entry whose from equals the title replaces it by its to, at most
once (the loop breaks after the first match). -/
def applyNormalized (normalized : List Redirect) (title : String) : String :=
  match normalized.find? (fun n => title == n.fromT) with
  | some n => n.toT
  | none => title

/-- Embeds the redirect do/while loop of getResponsePageByTitle: scan the
redirect list for an entry whose from equals the current title; on a match,
record the from as visited, move to the to title, and exit when that title
was already visited; without a match exit with the current title. The fuel
makes the loop structurally recursive; none (out of fuel) is unreachable
for the fuel passed by resolveTitleInQuery (theorem
resolveRedirectsAux_isSome below). -/
def resolveRedirectsAux (redirects : List Redirect) :
    Nat → List String → String → Option String
  | 0, _, _ => none
  | fuel + 1, visitedRedirects, title =>
    match redirects.find? (fun r => title == r.fromT) with
    | none => some title
    | some r =>
      let visited' := r.fromT :: visitedRedirects
      if visited'.contains r.toT then some r.toT
      else resolveRedirectsAux redirects fuel visited' r.toT

/-- The title-resolution part of getResponsePageByTitle: apply normalization
once, then follow redirects with loop detection. -/
def resolveTitleInQuery (query : Query) (title : String) : Option String :=
  let title1 := applyNormalized (query.normalized.getD []) title
  let redirects := query.redirects.getD []
  resolveRedirectsAux redirects (redirects.length + 1) [] title1

/-- The final scan of getResponsePageByTitle: the first page whose title
property is the resolved title. -/
def findPageInPages (pages : List JVal) (title : String) : Option JVal :=
  pages.find? (fun page =>
    match jGet page "title" with
    | some (.vStr t) => title == t
    | _ => false)

/-- Embeds getResponsePageByTitle from index.js. -/
def getResponsePageByTitle (response : Response) (title : String) : Option JVal :=
  let query := response.query.getD {}
  match resolveTitleInQuery query title with
  | none => none
  | some t => findPageInPages (pagesList query.pages) t

/-- A caller-supplied id: the JS string or number accepted by the ById
functions. -/
inductive JSPrim where
  | s (v : String)
  | n (v : Int)
deriving DecidableEq

/-- Embeds the opening coercion of the ById functions: a number is replaced
by its Number.prototype.toString form, a string is kept. -/
def JSPrim.toStr : JSPrim → String
  | .s v => v
  | .n v => jsNumToString v

/-- The response-side value of an id: a JSON string or number. -/
def primToJVal : JSPrim → JVal
  | .s v => .vStr v
  | .n v => .vNum v

/-- The page scan of getResponsePageByPageId over an array-shaped
collection: the first page whose pageid stringifies to the searched id
(accessing toString of an absent pageid throws). -/
def findPageByIdIn (pageIdStr : String) : List JVal → Except String (Option JVal)
  | [] => .ok none
  | page :: rest =>
    match jGet page "pageid" with
    | none => .error "TypeError: Cannot read properties of undefined (reading toString)"
    | some v =>
      match jsToString v with
      | .error e => .error e
      | .ok s =>
        if pageIdStr == s then .ok (some page) else findPageByIdIn pageIdStr rest

/-- Embeds getResponsePageByPageId from index.js. -/
def getResponsePageByPageId (response : Response) (pageId : JSPrim) :
    Except String (Option JVal) :=
  let pageIdStr := pageId.toStr
  let query := response.query.getD {}
  match query.pages with
  | some (.arr pages) => findPageByIdIn pageIdStr pages
  | some (.map kvs) =>
    -- pages[pageId] || null
    pure (match kvs.lookup pageIdStr with
      | some v => if jsTruthy v then some v else none
      | none => none)
  | none =>
    -- query.pages || {} is the empty object, whose lookup always misses
    pure none

/-- The value returned for a located revision: the revision object together
with the side-channel page association stored under the pageOfRevision
symbol (modelled as a separate field, since a symbol key is not an ordinary
enumerable property); the association is absent on missing revisions. -/
structure RevisionResult where
  revision : JVal
  pageOfRevision : Option JVal

/-- Embeds revisionWithPage from index.js: a copy of the revision with the
page attached under the pageOfRevision symbol. -/
def revisionWithPage (revision : JVal) (page : JVal) : RevisionResult :=
  ⟨revision, some page⟩

/-- Embeds missingRevision from index.js: ensure the missing key is present,
inferring the formatversion from the response when it has to be added. -/
def missingRevision (revision : JVal) (response : Response) (query : Query) : JVal :=
  match revision with
  | .vObj fs =>
    if hasKey fs "missing" then revision
    else
      let formatversion2 :=
        (match response.batchcomplete with
          | some (.vBool _) => true
          | _ => false) ||
        (match query.pages with
          | some (.arr _) => true
          | _ => false)
      .vObj (setKey fs "missing" (if formatversion2 then .vBool true else .vStr ""))
  | _ => revision

/-- Embeds removing the revisions property by the rest-spread
const (openbrace) revisions, ...remainingPage (closebrace) = page. -/
def removeKey (v : JVal) (key : String) : JVal :=
  match v with
  | .vObj fs => .vObj (fs.filter (fun kv => !(kv.1 == key)))
  | _ => v

/-- The inner revision scan of getResponseRevisionByRevisionId over one
page's revisions list. -/
def revisionScanRevs (remainingPage : JVal) (rid : String) :
    List JVal → Except String (Option RevisionResult)
  | [] => .ok none
  | revision :: rest => do
    match jGet revision "revid" with
    | none => .error "TypeError: Cannot read properties of undefined (reading toString)"
    | some v => do
      let s ← jsToString v
      if rid == s then pure (some (revisionWithPage revision remainingPage))
      else revisionScanRevs remainingPage rid rest

/-- The outer page scan of getResponseRevisionByRevisionId; revisions || []
treats an absent or falsy revisions property as the empty list. -/
def revisionScanPages (rid : String) : List JVal → Except String (Option RevisionResult)
  | [] => .ok none
  | page :: rest => do
    let remainingPage := removeKey page "revisions"
    let res ← (match jGet page "revisions" with
      | some (.vArr revs) => revisionScanRevs remainingPage rid revs
      | some v =>
        if jsTruthy v then .error "TypeError: page.revisions is not iterable"
        else .ok none
      | none => .ok none)
    match res with
    | some r => .ok (some r)
    | none => revisionScanPages rid rest

/-- Embeds getResponseRevisionByRevisionId from index.js. -/
def getResponseRevisionByRevisionId (response : Response) (revisionId : JSPrim) :
    Except String (Option RevisionResult) :=
  let rid := revisionId.toStr
  let query := response.query.getD {}
  let scan := revisionScanPages rid (pagesList query.pages)
  -- if (query.badrevids && query.badrevids[revisionId]) return missingRevision(...)
  match query.badrevids with
  | some kvs =>
    match kvs.lookup rid with
    | some rev =>
      if jsTruthy rev then pure (some ⟨missingRevision rev response query, none⟩)
      else scan
    | none => scan
  | none => scan

/-! Request params and the heap of Set and Array values, for the
params-shaping helpers makeParams, makeParamsWithString and
makeParamsWithNumeric. Sets and Arrays are mutable JS objects, so they are
modelled behind explicit heap references; this makes the promise that the
helpers never mutate a caller-supplied collection a provable frame
property. -/

/-- A value of a request params property: a string, a number, or a reference
to a Set or Array on the heap. -/
inductive PVal where
  | str (v : String)
  | num (v : Int)
  | setRef (r : Nat)
  | arrRef (r : Nat)
deriving DecidableEq

/-- A request params object: parameter names mapped to values, in property
insertion order. -/
abbrev Params := List (String × PVal)

/-- The heap of Set and Array contents. Sets are duplicate-free lists in
insertion order, matching JS Set iteration order. -/
structure PHeap where
  store : List (Nat × List JSPrim)
  next : Nat

/-- Reading a Set or Array from a heap reference. -/
def PHeap.get (h : PHeap) (r : Nat) : List JSPrim :=
  (h.store.lookup r).getD []

/-- Allocation of a fresh Set or Array (new Set, array literal, Array.from). -/
def PHeap.alloc (h : PHeap) (xs : List JSPrim) : Nat × PHeap :=
  (h.next, ⟨(h.next, xs) :: h.store, h.next + 1⟩)

/-- Mutation of the Set or Array behind a reference (Set.add, Array push).
The embedded helpers only ever call this on references they have freshly
allocated; the frame theorem for claim C9 proves exactly that pre-existing
references are unaffected. -/
def PHeap.update (h : PHeap) (r : Nat) (xs : List JSPrim) : PHeap :=
  ⟨(r, xs) :: h.store, h.next⟩

/-- Every allocated reference is below the fresh counter. -/
def PHeap.WF (h : PHeap) : Prop :=
  ∀ kv ∈ h.store, kv.1 < h.next

/-- Embeds JS property assignment on a params object, as performed by the
spread in makeParams and the params-shaping helpers. -/
def setParam : Params → String → PVal → Params
  | [], key, v => [(key, v)]
  | (k, w) :: rest, key, v =>
    if k == key then (k, v) :: rest else (k, w) :: setParam rest key v

/-- Embeds Set.prototype.add: append unless already present (SameValueZero,
which on strings and numbers is plain value equality). -/
def setInsert (xs : List JSPrim) (x : JSPrim) : List JSPrim :=
  if xs.contains x then xs else xs ++ [x]

/-- The contents of a Set built by inserting the given elements in order
(the m3api set helper, and setFrom from index.js). -/
def setOf (elements : List JSPrim) : List JSPrim :=
  elements.foldl setInsert []

/-- Embeds makeParams from index.js: default the action parameter to query,
reject any other action. -/
def makeParams (params : Params) : Except String Params :=
  match params.lookup "action" with
  | none => .ok (setParam params "action" (.str "query"))
  | some (.str "query") => .ok params
  | some _ => .error "params.action must be \"query\" or undefined"

/-- Embeds makeParamsWithString from index.js: add an extra string value to
the named parameter, copying the caller's Set or Array instead of mutating
it, and pass the result through makeParams. -/
def makeParamsWithString (paramName : String) (params : Params)
    (paramValue : String) (h : PHeap) : Except String (Params × PHeap) :=
  match params.lookup paramName with
  | some (.setRef r) =>
    -- values = new Set( values ); values.add( paramValue )
    let xs := h.get r
    let (r', h1) := h.alloc xs
    let h2 := h1.update r' (setInsert (h1.get r') (.s paramValue))
    (makeParams (setParam params paramName (.setRef r'))).map (fun ps => (ps, h2))
  | some (.arrRef r) =>
    -- if ( !values.includes( paramValue ) ) values = [ ...values, paramValue ]
    let xs := h.get r
    if xs.contains (.s paramValue) then
      (makeParams (setParam params paramName (.arrRef r))).map (fun ps => (ps, h))
    else
      let (r', h1) := h.alloc (xs ++ [.s paramValue])
      (makeParams (setParam params paramName (.arrRef r'))).map (fun ps => (ps, h1))
  | some (.str s) =>
    -- values = set( values, paramValue )
    let (r', h1) := h.alloc (setOf [.s s, .s paramValue])
    (makeParams (setParam params paramName (.setRef r'))).map (fun ps => (ps, h1))
  | none =>
    -- values = set( paramValue )
    let (r', h1) := h.alloc (setOf [.s paramValue])
    (makeParams (setParam params paramName (.setRef r'))).map (fun ps => (ps, h1))
  | some (.num _) =>
    .error ("params." ++ paramName ++ " must be Set, Array, string, or undefined")

/-- Embeds makeParamsWithNumeric from index.js: stringify the extra value,
rebuild the caller's Set or Array with stringified elements (setFrom or
Array.from on a fresh collection), add the value unless an element already
stringifies to it, and pass the result through makeParams. -/
def makeParamsWithNumeric (paramName : String) (params : Params)
    (paramValue : JSPrim) (h : PHeap) : Except String (Params × PHeap) :=
  let pv := paramValue.toStr
  match params.lookup paramName with
  | some (.setRef r) =>
    -- values = setFrom( values, ( element ) => element.toString() ); values.add( paramValue )
    let xs := h.get r
    let (r', h1) := h.alloc (setOf (xs.map (fun e => .s e.toStr)))
    let h2 := h1.update r' (setInsert (h1.get r') (.s pv))
    (makeParams (setParam params paramName (.setRef r'))).map (fun ps => (ps, h2))
  | some (.arrRef r) =>
    -- values = Array.from( values, toString, noting whether paramValue was seen );
    -- if ( !included ) values.push( paramValue )
    let xs := h.get r
    let mapped := xs.map (fun e => JSPrim.s e.toStr)
    let included := mapped.contains (.s pv)
    let (r', h1) := h.alloc mapped
    let h2 := if included then h1 else h1.update r' (h1.get r' ++ [.s pv])
    (makeParams (setParam params paramName (.arrRef r'))).map (fun ps => (ps, h2))
  | some (.str s) =>
    -- values = set( values, paramValue )
    let (r', h1) := h.alloc (setOf [.s s, .s pv])
    (makeParams (setParam params paramName (.setRef r'))).map (fun ps => (ps, h1))
  | some (.num nv) =>
    -- values = set( values.toString(), paramValue )
    let (r', h1) := h.alloc (setOf [.s (jsNumToString nv), .s pv])
    (makeParams (setParam params paramName (.setRef r'))).map (fun ps => (ps, h1))
  | none =>
    -- values = set( paramValue )
    let (r', h1) := h.alloc (setOf [.s pv])
    (makeParams (setParam params paramName (.setRef r'))).map (fun ps => (ps, h1))

/-! The empty-response governor. The maxEmptyResponses function and its
TooManyEmptyResponsesError are part of this repository (its unit tests
obtain both from index.js and CHANGES.md documents them), but their
implementation is not among the provided sources, so the governor is
modelled from the spec. -/

/-- Modelled from the spec: the distinguished error of the empty-response
governor (TooManyEmptyResponsesError, implemented outside the provided
sources); it carries no recoverable state. -/
structure TooManyEmptyResponsesError where

/-- Modelled from the spec: the per-request counting loop of the
empty-response governor configured by maxEmptyResponses (implemented
outside the provided sources). The counts are the number of entities each
successive response of the logical request yielded. On a response yielding
zero entities the counter is incremented and the request fails once the
counter exceeds the limit; on a productive response the counter resets; a
limit of none (governor not configured) never fails. -/
def governorRunAux (limit : Option Nat) :
    Nat → List Nat → Except TooManyEmptyResponsesError Unit
  | _, [] => .ok ()
  | counter, count :: rest =>
    if count == 0 then
      let counter' := counter + 1
      match limit with
      | some l =>
        if counter' > l then .error ⟨⟩ else governorRunAux limit counter' rest
      | none => governorRunAux limit counter' rest
    else governorRunAux limit 0 rest

/-- Modelled from the spec: the empty-response governor over a whole logical
request, starting from a zero counter. -/
def governorRun (limit : Option Nat) (counts : List Nat) :
    Except TooManyEmptyResponsesError Unit :=
  governorRunAux limit 0 counts

/-- The number of entities a response yields to queryFullPages. -/
def responsePagesCount (r : Response) : Nat :=
  (pagesList ((r.query.getD {}).pages)).length

/-! The batch aggregation driver of queryFullPages. -/

/-- Models the m3api transport collaborator requestAndContinueReducingBatch
from the spec's contract: the responses of one logical request arrive in
order; each is folded into the batch accumulator by the reducer; a response
carrying the batch-completion marker ends the current batch, whose
accumulated value is yielded, and the accumulator restarts from initial for
the next batch. A trailing run of responses with no completion marker
yields nothing. -/
def reduceBatchesAux {σ : Type} (reducer : σ → Response → Except String σ)
    (initial : Unit → σ) : σ → List Response → Except String (List σ)
  | _, [] => .ok []
  | acc, response :: rest =>
    match reducer acc response with
    | .error e => .error e
    | .ok acc' =>
      if response.batchcomplete.isSome then
        match reduceBatchesAux reducer initial (initial ()) rest with
        | .error e => .error e
        | .ok out => .ok (acc' :: out)
      else
        reduceBatchesAux reducer initial acc' rest

/-- Models requestAndContinueReducingBatch applied to a full logical
request, starting from a fresh accumulator. -/
def requestAndContinueReducingBatch {σ : Type}
    (reducer : σ → Response → Except String σ) (initial : Unit → σ)
    (responses : List Response) : Except String (List σ) :=
  reduceBatchesAux reducer initial (initial ()) responses

/-- Embeds the batch key of a page in queryFullPages:
page.pageid || page.title (fall back to title for missing pages); the key
may be undefined (none) when a page has neither. -/
def pageKey (page : JVal) : Option JVal :=
  match jGet page "pageid" with
  | some v => if jsTruthy v then some v else jGet page "title"
  | none => jGet page "title"

/-- Equality of JS Map keys (SameValueZero), on response values: primitives
by value; container keys would compare by reference, which distinct
response containers never are. -/
def keyEq : Option JVal → Option JVal → Bool
  | none, none => true
  | some a, some b => jsStrictEq a b
  | _, _ => false

/-- The keyed per-batch accumulator Map of queryFullPages, in key insertion
order. -/
abbrev PageBatch := List (Option JVal × JVal)

/-- Embeds Map.prototype.get for the batch accumulator. -/
def batchGet (batch : PageBatch) (k : Option JVal) : Option JVal :=
  (batch.find? (fun kv => keyEq kv.1 k)).map (fun kv => kv.2)

/-- Embeds Map.prototype.set for the batch accumulator: overwriting keeps
first-insertion order, a fresh key is appended. -/
def batchSet : PageBatch → Option JVal → JVal → PageBatch
  | [], k, v => [(k, v)]
  | (k0, w) :: rest, k, v =>
    if keyEq k0 k then (k0, v) :: rest else (k0, w) :: batchSet rest k v

/-- Embeds the reducer of queryFullPages from index.js: normalize the
response's pages, and merge each page into the keyed batch accumulator
(creating the entry if absent). -/
def queryFullPagesReducer (mv : MergeFn) (batch : PageBatch) (response : Response) :
    Except String PageBatch :=
  let pages := pagesList ((response.query.getD {}).pages)
  pages.foldlM (fun batch page =>
    let key := pageKey page
    match batchGet batch key with
    | some existing =>
      match existing, page with
      | .vObj existingFields, .vObj pageFields => do
        let merged ← mergeObjects mv existingFields pageFields
        pure (batchSet batch key (.vObj merged))
      | _, _ => .error "TypeError: pages must be objects"
    | none => pure (batchSet batch key page)) batch

/-- Embeds queryFullPages from index.js driven over a list of responses,
with the default null comparePages option: each completed batch yields its
accumulated pages in first-occurrence order (the generator yields the
batches in order; the per-batch lists are kept separate here to state the
batch-boundary properties). -/
def queryFullPages (mv : MergeFn) (responses : List Response) :
    Except String (List (List JVal)) :=
  (requestAndContinueReducingBatch (queryFullPagesReducer mv) (fun _ => []) responses).map
    (List.map (fun batch => batch.map (fun kv => kv.2)))

/-! Auxiliary predicates used to state the claims. -/

/-- Keys of an object's field list are pairwise distinct (always true of a
live JS object, whose properties are unique). -/
def keysNodup : JFields → Bool
  | [] => true
  | (k, _) :: rest => !(hasKey rest k) && keysNodup rest

mutual

/-- A value that merges with an equal copy of itself without change: any
primitive, the empty array, or an object of such values under pairwise
distinct keys. Nonempty arrays are excluded, because merging two arrays
concatenates them. -/
def selfMergeOKV : JVal → Bool
  | .vNull => true
  | .vBool _ => true
  | .vNum _ => true
  | .vStr _ => true
  | .vArr xs => xs.isEmpty
  | .vObj fs => selfMergeOKF fs

/-- The field-list form of selfMergeOKV. -/
def selfMergeOKF : List (String × JVal) → Bool
  | [] => true
  | (k, v) :: rest => !(hasKey rest k) && selfMergeOKV v && selfMergeOKF rest

end

/-- The redirect entries of a linear chain through the given titles:
each title redirects to the next. -/
def chainOf : List String → List Redirect
  | a :: b :: rest => ⟨a, b⟩ :: chainOf (b :: rest)
  | _ => []

/-- One redirect step, as getResponsePageByTitle takes it: the target of the
first redirect entry whose from equals the title. -/
def redirectNext (redirects : List Redirect) (title : String) : Option String :=
  (redirects.find? (fun r => title == r.fromT)).map Redirect.toT

/-- The deterministic redirect trajectory from a title: k redirect steps, or
none when a title without a matching redirect entry is hit on the way. -/
def redirectIterate (redirects : List Redirect) (title : String) : Nat → Option String
  | 0 => some title
  | k + 1 =>
    match redirectNext redirects title with
    | some title' => redirectIterate redirects title' k
    | none => none

/-- A title lying on a redirect cycle: following redirects from it comes
back to it after at least one step. -/
def cycleMember (redirects : List Redirect) (title : String) : Prop :=
  ∃ k, 0 < k ∧ redirectIterate redirects title k = some title

/-- The number of leading zero entity counts of a response sequence; used to
reason about the empty-response governor. -/
def leadZeros : List Nat → Nat
  | [] => 0
  | c :: rest => if c == 0 then leadZeros rest + 1 else 0

/-- The last response of a nonempty run carries the batch-completion
marker: the run ends on a batch boundary. -/
def endsBatchComplete (responses : List Response) : Prop :=
  ∀ x, responses.getLast? = some x → x.batchcomplete.isSome = true

/-! Helper lemmas about field lists. -/

theorem str_beq_symm_false {a b : String} (h : (a == b) = false) : (b == a) = false := by
  cases hbe : (b == a) with
  | false => rfl
  | true =>
    have e : b = a := by simpa [beq_iff_eq] using hbe
    subst e
    simp at h

theorem lookup_eq_none_of_hasKey {fs : JFields} {k : String} (h : hasKey fs k = false) :
    fs.lookup k = none := by
  induction fs with
  | nil => rfl
  | cons kv rest ih =>
    obtain ⟨k0, w⟩ := kv
    simp only [hasKey, List.any_cons, Bool.or_eq_false_iff] at h
    have hne : (k == k0) = false := str_beq_symm_false h.1
    rw [List.lookup, hne]
    exact ih h.2

theorem mem_hasKey {fs : JFields} {k : String} {v : JVal} (h : (k, v) ∈ fs) :
    hasKey fs k = true := by
  induction fs with
  | nil => cases h
  | cons kv0 rest ih =>
    rcases List.mem_cons.mp h with h | h
    · have e : kv0 = (k, v) := h.symm
      subst e
      simp only [hasKey, List.any_cons, Bool.or_eq_true]
      exact Or.inl (by simp)
    · simp only [hasKey, List.any_cons, Bool.or_eq_true]
      exact Or.inr (ih h)

theorem setKey_append {fs : JFields} {k : String} (v : JVal) (h : hasKey fs k = false) :
    setKey fs k v = fs ++ [(k, v)] := by
  induction fs with
  | nil => rfl
  | cons kv rest ih =>
    obtain ⟨k0, w⟩ := kv
    simp only [hasKey, List.any_cons, Bool.or_eq_false_iff] at h
    rw [setKey, if_neg (by simp [h.1]), ih h.2]
    rfl

theorem lookup_setKey_ne {fs : JFields} {k0 k : String} (v : JVal)
    (h : (k == k0) = false) : (setKey fs k0 v).lookup k = fs.lookup k := by
  induction fs with
  | nil =>
    simp only [setKey, List.lookup, h]
  | cons kv rest ih =>
    obtain ⟨k1, w⟩ := kv
    by_cases hk : (k1 == k0) = true
    · have e : k1 = k0 := by simpa [beq_iff_eq] using hk
      subst e
      rw [setKey, if_pos hk]
      simp only [List.lookup, h]
    · have hk' : (k1 == k0) = false := by simpa using hk
      rw [setKey, if_neg (by simp [hk']), List.lookup, List.lookup]
      cases hbe : (k == k1) with
      | true => rfl
      | false => exact ih

theorem lookup_setKey_self {fs : JFields} {k : String} (v : JVal) :
    (setKey fs k v).lookup k = some v := by
  induction fs with
  | nil =>
    rw [setKey, List.lookup]
    simp
  | cons kv rest ih =>
    obtain ⟨k1, w⟩ := kv
    by_cases hk : (k1 == k) = true
    · have e : k1 = k := by simpa [beq_iff_eq] using hk
      subst e
      rw [setKey, if_pos hk, List.lookup]
      simp
    · have hk' : (k1 == k) = false := by simpa using hk
      rw [setKey, if_neg (by simp [hk']), List.lookup, str_beq_symm_false hk']
      exact ih

theorem setKey_self {fs : JFields} {k : String} {v : JVal}
    (h : fs.lookup k = some v) : setKey fs k v = fs := by
  induction fs with
  | nil => cases h
  | cons kv rest ih =>
    obtain ⟨k1, w⟩ := kv
    by_cases hk : (k == k1) = true
    · have e : k = k1 := by simpa [beq_iff_eq] using hk
      rw [List.lookup, hk] at h
      have hw : w = v := by
        have := h
        simpa using this
      have hk1 : (k1 == k) = true := by
        subst e
        simp
      rw [setKey, if_pos hk1, hw]
    · have hk' : (k == k1) = false := by simpa using hk
      rw [List.lookup, hk'] at h
      rw [setKey, if_neg (by simp [str_beq_symm_false hk']), ih h]

theorem jsStrictEq_refl {v : JVal} (h1 : isArray v = false) (h2 : isObject v = false) :
    jsStrictEq v v = true := by
  cases v <;> simp_all [jsStrictEq, isArray, isObject]

theorem jDepth_le_of_mem {fs : JFields} {kv : String × JVal} (h : kv ∈ fs) :
    jDepth kv.2 ≤ jDepthFields fs := by
  induction fs with
  | nil => exact absurd h (List.not_mem_nil _)
  | cons kv0 rest ih =>
    obtain ⟨k0, v0⟩ := kv0
    rcases List.mem_cons.mp h with h | h
    · subst h
      simp [jDepthFields]
    · calc jDepth kv.2 ≤ jDepthFields rest := ih h
        _ ≤ jDepthFields ((k0, v0) :: rest) := by simp [jDepthFields]

/-! Fuel adequacy for the embedding of mergeObjects. -/

theorem mergeEntriesGo_congr {mv : MergeFn}
    {recur₁ recur₂ : JFields → JFields → String → Except String JFields} :
    ∀ (entries base : JFields) (path : String),
    (∀ bf gfs p, jDepthFields gfs < jDepthFields entries →
      recur₁ bf gfs p = recur₂ bf gfs p) →
    mergeEntriesGo mv recur₁ base entries path = mergeEntriesGo mv recur₂ base entries path := by
  intro entries
  induction entries with
  | nil => intro base path _; rfl
  | cons kv rest ih =>
    intro base path hrec
    obtain ⟨key, incrementalValue⟩ := kv
    have hrest : ∀ bf gfs p, jDepthFields gfs < jDepthFields rest →
        recur₁ bf gfs p = recur₂ bf gfs p := by
      intro bf gfs p hlt
      refine hrec bf gfs p (lt_of_lt_of_le hlt ?_)
      simp [jDepthFields]
    cases hl : base.lookup key with
    | none =>
      simp only [mergeEntriesGo, hl]
      exact ih _ _ hrest
    | some baseValue =>
      simp only [mergeEntriesGo, hl]
      by_cases hobj : (isObject baseValue && isObject incrementalValue) = true
      · have hinc : incrementalValue = .vObj (objFields incrementalValue) := by
          cases incrementalValue <;> simp_all [isObject, objFields]
        have hdepth : jDepthFields (objFields incrementalValue) <
            jDepthFields ((key, incrementalValue) :: rest) := by
          have h1 : jDepthFields ((key, incrementalValue) :: rest) =
              max (jDepth incrementalValue) (jDepthFields rest) := by
            simp [jDepthFields]
          have h2 : jDepth incrementalValue = 1 + jDepthFields (objFields incrementalValue) := by
            conv_lhs => rw [hinc]
            rfl
          rw [h1, h2]
          exact lt_of_lt_of_le (by omega) (le_max_left _ _)
        rw [hobj]
        simp only [if_true]
        rw [hrec _ _ _ hdepth]
        cases recur₂ (objFields baseValue) (objFields incrementalValue) _ with
        | ok mergedFields => exact ih _ _ hrest
        | error e => rfl
      · rw [if_neg hobj, if_neg hobj]
        by_cases harr : (isArray baseValue && isArray incrementalValue) = true
        · rw [if_pos harr, if_pos harr]
          exact ih _ _ hrest
        · rw [if_neg harr, if_neg harr]
          by_cases heq : jsStrictEq baseValue incrementalValue = true
          · rw [if_pos heq, if_pos heq]
            exact ih _ _ hrest
          · rw [if_neg heq, if_neg heq]
            cases mv baseValue incrementalValue _ base key with
            | ok v => exact ih _ _ hrest
            | error e => rfl

theorem mergeEntriesF_fuel {mv : MergeFn} :
    ∀ (fuel1 fuel2 : Nat) (base entries : JFields) (path : String),
    jDepthFields entries < fuel1 → jDepthFields entries < fuel2 →
    mergeEntriesF mv fuel1 base entries path = mergeEntriesF mv fuel2 base entries path := by
  intro fuel1
  induction fuel1 with
  | zero =>
    intro fuel2 base entries path h1 _
    omega
  | succ a ih =>
    intro fuel2 base entries path h1 h2
    cases fuel2 with
    | zero => omega
    | succ b =>
      simp only [mergeEntriesF]
      apply mergeEntriesGo_congr
      intro bf gfs p hlt
      exact ih b bf gfs p (by omega) (by omega)

/-! Facts about self-merge-stable values. -/

theorem selfMergeOKF_head {k : String} {v : JVal} {rest : JFields}
    (h : selfMergeOKF ((k, v) :: rest) = true) :
    hasKey rest k = false ∧ selfMergeOKV v = true ∧ selfMergeOKF rest = true := by
  simp only [selfMergeOKF, Bool.and_eq_true, Bool.not_eq_true'] at h
  exact ⟨h.1.1, h.1.2, h.2⟩

theorem selfMergeOKF_mem {fs : JFields} (h : selfMergeOKF fs = true)
    {kv : String × JVal} (hm : kv ∈ fs) : selfMergeOKV kv.2 = true := by
  induction fs with
  | nil => cases hm
  | cons kv0 rest ih =>
    obtain ⟨k0, v0⟩ := kv0
    obtain ⟨-, hv, hrest⟩ := selfMergeOKF_head h
    rcases List.mem_cons.mp hm with hm | hm
    · subst hm
      exact hv
    · exact ih hrest hm

theorem selfMergeOKF_lookup {fs : JFields} (h : selfMergeOKF fs = true)
    {k : String} {v : JVal} (hm : (k, v) ∈ fs) : fs.lookup k = some v := by
  induction fs with
  | nil => cases hm
  | cons kv0 rest ih =>
    obtain ⟨k0, v0⟩ := kv0
    obtain ⟨hnk, -, hrest⟩ := selfMergeOKF_head h
    rcases List.mem_cons.mp hm with hme | hmr
    · obtain ⟨e1, e2⟩ := Prod.mk.injEq .. ▸ hme
      subst e1
      subst e2
      simp [List.lookup]
    · have hne : (k == k0) = false := by
        cases hbe : (k == k0) with
        | false => rfl
        | true =>
          have e : k = k0 := by simpa [beq_iff_eq] using hbe
          subst e
          have hkk := mem_hasKey hmr
          rw [hkk] at hnk
          exact Bool.noConfusion hnk
      rw [List.lookup, hne]
      exact ih hrest hmr

theorem mergeEntriesGo_self {mv : MergeFn}
    {recur : JFields → JFields → String → Except String JFields} :
    ∀ (entries base : JFields) (path : String),
    (∀ gfs p, jDepthFields gfs < jDepthFields entries → selfMergeOKF gfs = true →
      recur gfs gfs p = .ok gfs) →
    (∀ kv ∈ entries, base.lookup kv.1 = some kv.2 ∧ selfMergeOKV kv.2 = true) →
    mergeEntriesGo mv recur base entries path = .ok base := by
  intro entries
  induction entries with
  | nil => intro base path _ _; rfl
  | cons kv rest ih =>
    intro base path hrec hkv
    obtain ⟨key, v⟩ := kv
    have hlook : base.lookup key = some v := (hkv _ (List.mem_cons_self _ _)).1
    have hok : selfMergeOKV v = true := (hkv _ (List.mem_cons_self _ _)).2
    have hrec' : ∀ gfs p, jDepthFields gfs < jDepthFields rest → selfMergeOKF gfs = true →
        recur gfs gfs p = .ok gfs := by
      intro gfs p hlt hg
      refine hrec gfs p (lt_of_lt_of_le hlt ?_) hg
      simp [jDepthFields]
    have hkv' : ∀ kv ∈ rest, base.lookup kv.1 = some kv.2 ∧ selfMergeOKV kv.2 = true :=
      fun kv hm => hkv kv (List.mem_cons_of_mem _ hm)
    simp only [mergeEntriesGo, hlook]
    by_cases hobj : isObject v = true
    · obtain ⟨gfs, rfl⟩ : ∃ gfs, v = .vObj gfs := by
        cases v
        case vObj gfs => exact ⟨gfs, rfl⟩
        all_goals exact absurd hobj (by simp [isObject])
      have hcond : (isObject (JVal.vObj gfs) && isObject (JVal.vObj gfs)) = true := by
        simp [isObject]
      rw [if_pos hcond]
      have hdep : jDepthFields (objFields (JVal.vObj gfs)) < jDepthFields ((key, JVal.vObj gfs) :: rest) := by
        have h1 : jDepthFields ((key, JVal.vObj gfs) :: rest) =
            max (jDepth (JVal.vObj gfs)) (jDepthFields rest) := by
          simp [jDepthFields]
        have h2 : jDepth (JVal.vObj gfs) = 1 + jDepthFields gfs := rfl
        rw [h1, h2]
        refine lt_of_lt_of_le ?_ (le_max_left _ _)
        simp only [objFields]
        omega
      have hokf : selfMergeOKF gfs = true := by
        simpa [selfMergeOKV] using hok
      rw [hrec _ _ hdep (by simpa [objFields] using hokf)]
      have hlk : base.lookup key = some (JVal.vObj (objFields (JVal.vObj gfs))) := by
        simpa [objFields] using hlook
      have hgoal : mergeEntriesGo mv recur
          (setKey base key (JVal.vObj (objFields (JVal.vObj gfs)))) rest path =
          Except.ok base := by
        rw [setKey_self hlk]
        exact ih base path hrec' hkv'
      exact hgoal
    · rw [if_neg (by simpa [Bool.and_self] using hobj)]
      by_cases harr : isArray v = true
      · obtain ⟨xs, rfl⟩ : ∃ xs, v = .vArr xs := by
          cases v
          case vArr xs => exact ⟨xs, rfl⟩
          all_goals exact absurd harr (by simp [isArray])
        have hxs : xs = [] := by
          simpa [selfMergeOKV, List.isEmpty_iff] using hok
        subst hxs
        have hcondA : (isArray (JVal.vArr ([] : List JVal)) && isArray (JVal.vArr ([] : List JVal))) = true := by
          simp [isArray]
        rw [if_pos hcondA]
        have hgoal : mergeEntriesGo mv recur
            (setKey base key (JVal.vArr (arrElems (JVal.vArr ([] : List JVal)) ++
              arrElems (JVal.vArr ([] : List JVal))))) rest path = Except.ok base := by
          rw [show (JVal.vArr (arrElems (JVal.vArr ([] : List JVal)) ++
            arrElems (JVal.vArr ([] : List JVal)))) = JVal.vArr ([] : List JVal) from rfl]
          rw [setKey_self hlook]
          exact ih base path hrec' hkv'
        exact hgoal
      · rw [if_neg (by simpa [Bool.and_self] using harr)]
        have hrefl : jsStrictEq v v = true :=
          jsStrictEq_refl (by simpa using harr) (by simpa using hobj)
        rw [if_pos hrefl]
        exact ih base path hrec' hkv'

theorem mergeEntriesF_self {mv : MergeFn} :
    ∀ (fuel : Nat) (entries base : JFields) (path : String),
    jDepthFields entries < fuel →
    (∀ kv ∈ entries, base.lookup kv.1 = some kv.2 ∧ selfMergeOKV kv.2 = true) →
    mergeEntriesF mv fuel base entries path = .ok base := by
  intro fuel
  induction fuel with
  | zero =>
    intro entries base path hd _
    omega
  | succ a ih =>
    intro entries base path hd hkv
    simp only [mergeEntriesF]
    apply mergeEntriesGo_self
    · intro gfs p hlt hg
      refine ih gfs gfs p (by omega) ?_
      intro kv hm
      exact ⟨selfMergeOKF_lookup hg (by simpa using hm), selfMergeOKF_mem hg hm⟩
    · exact hkv

theorem hasKey_append {fs1 fs2 : JFields} {k : String} :
    hasKey (fs1 ++ fs2) k = (hasKey fs1 k || hasKey fs2 k) := by
  simp [hasKey, List.any_append]

theorem mergeEntriesGo_append {mv : MergeFn}
    {recur : JFields → JFields → String → Except String JFields} :
    ∀ (entries base : JFields) (path : String),
    keysNodup entries = true →
    (∀ kv ∈ entries, hasKey base kv.1 = false) →
    mergeEntriesGo mv recur base entries path = .ok (base ++ entries) := by
  intro entries
  induction entries with
  | nil =>
    intro base path _ _
    simp [mergeEntriesGo]
  | cons kv rest ih =>
    intro base path hnd hdis
    obtain ⟨k, v⟩ := kv
    have hnd' : hasKey rest k = false ∧ keysNodup rest = true := by
      simp only [keysNodup, Bool.and_eq_true, Bool.not_eq_true'] at hnd
      exact hnd
    have hk : hasKey base k = false := hdis _ (List.mem_cons_self _ _)
    have hlook : base.lookup k = none := lookup_eq_none_of_hasKey hk
    simp only [mergeEntriesGo, hlook]
    rw [setKey_append v hk]
    rw [ih (base ++ [(k, v)]) path hnd'.2 ?_]
    · simp
    · intro kv hm
      rw [hasKey_append]
      have h1 : hasKey base kv.1 = false := hdis _ (List.mem_cons_of_mem _ hm)
      have h2 : hasKey [(k, v)] kv.1 = false := by
        have hne : (k == kv.1) = false := by
          cases hbe : (k == kv.1) with
          | false => rfl
          | true =>
            have e : k = kv.1 := by simpa [beq_iff_eq] using hbe
            obtain ⟨k1, v1⟩ := kv
            subst e
            rw [mem_hasKey hm] at hnd'
            exact absurd hnd'.1 (by simp)
        simp [hasKey, hne]
      rw [h1, h2]
      rfl

theorem selfMergeOKF_keysNodup {fs : JFields} (h : selfMergeOKF fs = true) :
    keysNodup fs = true := by
  induction fs with
  | nil => rfl
  | cons kv rest ih =>
    obtain ⟨k, v⟩ := kv
    obtain ⟨h1, -, h3⟩ := selfMergeOKF_head h
    simp only [keysNodup, Bool.and_eq_true, Bool.not_eq_true']
    exact ⟨h1, ih h3⟩

theorem mergeObjects_eq_go (mv : MergeFn) (base incremental : JFields) (path : String) :
    mergeObjects mv base incremental path =
      mergeEntriesGo mv (mergeEntriesF mv (jDepthFields incremental)) base incremental path := rfl

/-! Preservation of keys across a merge pass; used for the array
concatenation claim. -/

theorem mergeEntriesGo_lookup_preserved {mv : MergeFn}
    {recur : JFields → JFields → String → Except String JFields} :
    ∀ (entries base : JFields) (path : String) {k : String} {w : JVal} {res : JFields},
    hasKey entries k = false →
    base.lookup k = some w →
    mergeEntriesGo mv recur base entries path = .ok res →
    res.lookup k = some w := by
  intro entries
  induction entries with
  | nil =>
    intro base path k w res _ hbk hgo
    have h2 : (Except.ok base : Except String JFields) = .ok res := hgo
    injection h2 with h
    subst h
    exact hbk
  | cons kv rest ih =>
    intro base path k w res hnk hbk hgo
    obtain ⟨k0, v0⟩ := kv
    simp only [hasKey, List.any_cons, Bool.or_eq_false_iff] at hnk
    have hke : (k == k0) = false := str_beq_symm_false hnk.1
    have hrest : hasKey rest k = false := hnk.2
    revert hgo
    cases hl : base.lookup k0 with
    | none =>
      simp only [mergeEntriesGo, hl]
      intro hgo
      refine ih _ path hrest ?_ hgo
      rw [lookup_setKey_ne v0 hke]
      exact hbk
    | some bv =>
      simp only [mergeEntriesGo, hl]
      by_cases hobj : (isObject bv && isObject v0) = true
      · rw [if_pos hobj]
        cases hre : recur (objFields bv) (objFields v0)
            (if (path == "") = true then k0 else path ++ "." ++ k0) with
        | ok mf =>
          intro hgo
          refine ih _ path hrest ?_ hgo
          rw [lookup_setKey_ne _ hke]
          exact hbk
        | error e =>
          intro hgo
          exact absurd hgo (by simp)
      · rw [if_neg hobj]
        by_cases harr : (isArray bv && isArray v0) = true
        · rw [if_pos harr]
          intro hgo
          refine ih _ path hrest ?_ hgo
          rw [lookup_setKey_ne _ hke]
          exact hbk
        · rw [if_neg harr]
          by_cases heq : jsStrictEq bv v0 = true
          · rw [if_pos heq]
            intro hgo
            exact ih _ path hrest hbk hgo
          · rw [if_neg heq]
            cases hmv : mv bv v0 (if (path == "") = true then k0 else path ++ "." ++ k0) base k0 with
            | ok v =>
              intro hgo
              refine ih _ path hrest ?_ hgo
              rw [lookup_setKey_ne _ hke]
              exact hbk
            | error e =>
              intro hgo
              exact absurd hgo (by simp)

theorem mergeEntriesGo_array_concat {mv : MergeFn}
    {recur : JFields → JFields → String → Except String JFields} :
    ∀ (entries base : JFields) (path : String) {k : String} {xs ys : List JVal} {res : JFields},
    keysNodup entries = true →
    base.lookup k = some (.vArr xs) →
    entries.lookup k = some (.vArr ys) →
    mergeEntriesGo mv recur base entries path = .ok res →
    res.lookup k = some (.vArr (xs ++ ys)) := by
  intro entries
  induction entries with
  | nil =>
    intro base path k xs ys res _ _ hek
    cases hek
  | cons kv rest ih =>
    intro base path k xs ys res hnd hbk hek hgo
    obtain ⟨k0, v0⟩ := kv
    simp only [keysNodup, Bool.and_eq_true, Bool.not_eq_true'] at hnd
    by_cases hk : (k == k0) = true
    · -- this entry is the array-valued key itself
      have e : k = k0 := by simpa [beq_iff_eq] using hk
      subst e
      rw [List.lookup, beq_self_eq_true] at hek
      have hv0 : v0 = .vArr ys := by simpa using hek
      subst hv0
      revert hgo
      simp only [mergeEntriesGo, hbk]
      rw [if_neg (by simp [isObject])]
      rw [if_pos (by simp [isArray])]
      intro hgo
      refine mergeEntriesGo_lookup_preserved rest _ path hnd.1 ?_ hgo
      rw [show (JVal.vArr (arrElems (JVal.vArr xs) ++ arrElems (JVal.vArr ys))) =
        JVal.vArr (xs ++ ys) from rfl]
      exact lookup_setKey_self _
    · -- a different key: the array entry is preserved and found later
      have hke : (k == k0) = false := by simpa using hk
      rw [List.lookup, hke] at hek
      revert hgo
      cases hl : base.lookup k0 with
      | none =>
        simp only [mergeEntriesGo, hl]
        intro hgo
        refine ih _ path hnd.2 ?_ hek hgo
        rw [lookup_setKey_ne v0 hke]
        exact hbk
      | some bv =>
        simp only [mergeEntriesGo, hl]
        by_cases hobj : (isObject bv && isObject v0) = true
        · rw [if_pos hobj]
          cases hre : recur (objFields bv) (objFields v0)
              (if (path == "") = true then k0 else path ++ "." ++ k0) with
          | ok mf =>
            intro hgo
            refine ih _ path hnd.2 ?_ hek hgo
            rw [lookup_setKey_ne _ hke]
            exact hbk
          | error e =>
            intro hgo
            exact absurd hgo (by simp)
        · rw [if_neg hobj]
          by_cases harr : (isArray bv && isArray v0) = true
          · rw [if_pos harr]
            intro hgo
            refine ih _ path hnd.2 ?_ hek hgo
            rw [lookup_setKey_ne _ hke]
            exact hbk
          · rw [if_neg harr]
            by_cases heq : jsStrictEq bv v0 = true
            · rw [if_pos heq]
              intro hgo
              exact ih _ path hnd.2 hbk hek hgo
            · rw [if_neg heq]
              cases hmv : mv bv v0 (if (path == "") = true then k0 else path ++ "." ++ k0) base k0 with
              | ok v =>
                intro hgo
                refine ih _ path hnd.2 ?_ hek hgo
                rw [lookup_setKey_ne _ hke]
                exact hbk
              | error e =>
                intro hgo
                exact absurd hgo (by simp)

/-! Claim theorems for the Deep Merge Engine. -/

/-- C5: the default conflict resolver keeps the accumulator's value when
both values are strings or both are numbers, and for every other pair
raises an error naming the dotted path of the conflicting attribute and
both value shapes; merging two four-deep objects disagreeing on a boolean
at a.b.c.d fails with exactly that path. -/
theorem C5_default_conflict_resolver :
    (∀ (b i : JVal) (path : String), jsTypeof b = jsTypeof i →
      (jsTypeof b = "string" ∨ jsTypeof b = "number") →
      mergeValues b i path = .ok b) ∧
    (∀ (b i : JVal) (path : String),
      ¬(jsTypeof b = jsTypeof i ∧ (jsTypeof b = "string" ∨ jsTypeof b = "number")) →
      mergeValues b i path = .error ("Error merging objects from two responses at " ++ path ++
        ": Cannot merge " ++ format b ++ " with " ++ format i)) ∧
    mergeObjects defaultMergeFn
      [("a", JVal.vObj [("b", JVal.vObj [("c", JVal.vObj [("d", JVal.vBool true)])])])]
      [("a", JVal.vObj [("b", JVal.vObj [("c", JVal.vObj [("d", JVal.vBool false)])])])] =
      .error "Error merging objects from two responses at a.b.c.d: Cannot merge boolean (true) with boolean (false)" := by
  refine ⟨?_, ?_, rfl⟩
  · intro b i path h1 h2
    have hcond : (jsTypeof b == jsTypeof i &&
        (jsTypeof b == "string" || jsTypeof b == "number")) = true := by
      rcases h2 with h2 | h2 <;> simp [beq_iff_eq, h1.symm, h2]
    simp only [mergeValues]
    rw [if_pos hcond]
  · intro b i path h
    have hcond : (jsTypeof b == jsTypeof i &&
        (jsTypeof b == "string" || jsTypeof b == "number")) = false := by
      cases hc : (jsTypeof b == jsTypeof i &&
          (jsTypeof b == "string" || jsTypeof b == "number")) with
      | false => rfl
      | true =>
        exfalso
        apply h
        simp only [Bool.and_eq_true, Bool.or_eq_true, beq_iff_eq] at hc
        exact ⟨hc.1, hc.2⟩
    simp only [mergeValues]
    rw [if_neg (by simp [hcond])]

/-- C5 witness: the resolver at concrete inputs, keeping the base string
and rejecting a boolean conflict. -/
theorem C5_witness :
    mergeValues (JVal.vStr "x") (JVal.vStr "y") "p" = .ok (JVal.vStr "x") ∧
    mergeValues (JVal.vBool true) (JVal.vBool false) "p" =
      .error "Error merging objects from two responses at p: Cannot merge boolean (true) with boolean (false)" :=
  ⟨C5_default_conflict_resolver.1 (JVal.vStr "x") (JVal.vStr "y") "p" rfl (Or.inl rfl),
   C5_default_conflict_resolver.2.1 (JVal.vBool true) (JVal.vBool false) "p" (by decide)⟩

/-- C3 counterexample: merging the entity with links [1] into an accumulator
already equal to it concatenates the array, so merge(merge(empty, A), A)
is links [1, 1], not merge(empty, A) = links [1]. -/
theorem C3_counterexample :
    mergeObjects defaultMergeFn [] [("links", JVal.vArr [JVal.vNum 1])] =
      .ok [("links", JVal.vArr [JVal.vNum 1])] ∧
    mergeObjects defaultMergeFn [("links", JVal.vArr [JVal.vNum 1])]
      [("links", JVal.vArr [JVal.vNum 1])] =
      .ok [("links", JVal.vArr [JVal.vNum 1, JVal.vNum 1])] ∧
    ([("links", JVal.vArr [JVal.vNum 1, JVal.vNum 1])] : JFields) ≠
      [("links", JVal.vArr [JVal.vNum 1])] :=
  ⟨rfl, rfl, by simp⟩

/-- C3 (amended): the deep merge is idempotent when merging an entity into
an accumulator that already equals it, provided the entity holds no
nonempty array value at any depth (array values are concatenated by the
merge, so any nonempty array breaks idempotence, as the counterexample
shows): merge(merge(empty, A), A) = merge(empty, A) = A. -/
theorem C3_merge_idempotent_without_arrays (fs : JFields)
    (h : selfMergeOKF fs = true) :
    mergeObjects defaultMergeFn [] fs = .ok fs ∧
    mergeObjects defaultMergeFn fs fs = .ok fs := by
  constructor
  · rw [mergeObjects_eq_go]
    have := @mergeEntriesGo_append defaultMergeFn
      (mergeEntriesF defaultMergeFn (jDepthFields fs)) fs [] ""
      (selfMergeOKF_keysNodup h) (fun kv _ => rfl)
    simpa using this
  · exact mergeEntriesF_self (jDepthFields fs + 1) fs fs "" (by omega)
      (fun kv hm => ⟨selfMergeOKF_lookup h (by simpa using hm), selfMergeOKF_mem h hm⟩)

/-- C3 witness: idempotent self-merge of a concrete array-free entity. -/
theorem C3_witness :
    selfMergeOKF [("title", JVal.vStr "T"), ("info", JVal.vObj [("n", JVal.vNum 3)])] = true ∧
    mergeObjects defaultMergeFn
      [("title", JVal.vStr "T"), ("info", JVal.vObj [("n", JVal.vNum 3)])]
      [("title", JVal.vStr "T"), ("info", JVal.vObj [("n", JVal.vNum 3)])] =
      .ok [("title", JVal.vStr "T"), ("info", JVal.vObj [("n", JVal.vNum 3)])] :=
  ⟨rfl, (C3_merge_idempotent_without_arrays
    [("title", JVal.vStr "T"), ("info", JVal.vObj [("n", JVal.vNum 3)])] rfl).2⟩

/-- C4: when a key holds arrays in both the accumulator and the incremental
entity, the merge stores their concatenation, accumulator elements first,
with no de-duplication; folding links [1], then [2], then [3] yields
links [1, 2, 3]. -/
theorem C4_array_concat :
    (∀ (mv : MergeFn) (base incremental : JFields) (path k : String)
      (xs ys : List JVal) (res : JFields),
      keysNodup incremental = true →
      base.lookup k = some (.vArr xs) →
      incremental.lookup k = some (.vArr ys) →
      mergeObjects mv base incremental path = .ok res →
      res.lookup k = some (.vArr (xs ++ ys))) ∧
    (mergeObjects defaultMergeFn [] [("links", JVal.vArr [JVal.vNum 1])] =
      .ok [("links", JVal.vArr [JVal.vNum 1])] ∧
    mergeObjects defaultMergeFn [("links", JVal.vArr [JVal.vNum 1])]
      [("links", JVal.vArr [JVal.vNum 2])] =
      .ok [("links", JVal.vArr [JVal.vNum 1, JVal.vNum 2])] ∧
    mergeObjects defaultMergeFn [("links", JVal.vArr [JVal.vNum 1, JVal.vNum 2])]
      [("links", JVal.vArr [JVal.vNum 3])] =
      .ok [("links", JVal.vArr [JVal.vNum 1, JVal.vNum 2, JVal.vNum 3])]) := by
  refine ⟨?_, rfl, rfl, rfl⟩
  intro mv base incremental path k xs ys res hnd hbk hek hmerge
  rw [mergeObjects_eq_go] at hmerge
  exact mergeEntriesGo_array_concat incremental base path hnd hbk hek hmerge

/-- C4 witness: the general concatenation statement applied at links [1]
merged with links [2]. -/
theorem C4_witness :
    List.lookup "links" ([("links", JVal.vArr [JVal.vNum 1, JVal.vNum 2])] : JFields) =
      some (JVal.vArr ([JVal.vNum 1] ++ [JVal.vNum 2])) :=
  C4_array_concat.1 defaultMergeFn [("links", JVal.vArr [JVal.vNum 1])]
    [("links", JVal.vArr [JVal.vNum 2])] "" "links" [JVal.vNum 1] [JVal.vNum 2]
    [("links", JVal.vArr [JVal.vNum 1, JVal.vNum 2])] rfl rfl rfl rfl

/-! Claim theorems for the extraction functions. -/

/-- C10: on a response lacking the query field entirely, or whose query
lacks the pages, normalized, redirects and badrevids collections, all three
extraction functions are total and return null (no thrown TypeError) for
every looked-up title, page id or revision id. -/
theorem C10_absent_collections_null (response : Response) (title : String)
    (pid rid : JSPrim)
    (h : response.query = none ∨ response.query = some {}) :
    getResponsePageByTitle response title = none ∧
    getResponsePageByPageId response pid = .ok none ∧
    getResponseRevisionByRevisionId response rid = .ok none := by
  obtain ⟨q, bc⟩ := response
  rcases h with h | h
  · have h' : q = none := h
    subst h'
    exact ⟨rfl, rfl, rfl⟩
  · have h' : q = some {} := h
    subst h'
    exact ⟨rfl, rfl, rfl⟩

/-- C10 witness: the empty response at concrete lookups. -/
theorem C10_witness :
    getResponsePageByTitle ⟨none, none⟩ "T" = none ∧
    getResponsePageByPageId ⟨none, none⟩ (JSPrim.n 5) = .ok none ∧
    getResponseRevisionByRevisionId ⟨none, none⟩ (JSPrim.s "7") = .ok none :=
  C10_absent_collections_null ⟨none, none⟩ "T" (JSPrim.n 5) (JSPrim.s "7") (Or.inl rfl)

theorem bitLenF_le : ∀ (fuel k n : Nat), n < 2 ^ k → k ≤ fuel → bitLenF fuel n ≤ k := by
  intro fuel
  induction fuel with
  | zero =>
    intro k n h hk
    simp [bitLenF]
  | succ f ih =>
    intro k n h hk
    by_cases hn : n = 0
    · simp [bitLenF, hn]
    · rw [bitLenF, if_neg hn]
      have hk1 : 1 ≤ k := by
        by_contra hc
        have hz : k = 0 := by omega
        subst hz
        simp at h
        omega
      have h2 : n / 2 < 2 ^ (k - 1) := by
        have hp : 2 ^ k = 2 ^ (k - 1) * 2 := by
          rw [← pow_succ]
          congr 1
          omega
        rw [hp] at h
        omega
      have := ih (k - 1) (n / 2) h2 (by omega)
      omega

theorem jsNumToString_small (n : Nat) (h : n < 2 ^ 53) :
    jsNumToString (n : Int) = Nat.repr n := by
  have hna : (n : Int).natAbs = n := Int.natAbs_ofNat n
  have hnn : ¬((n : Int) < 0) := by
    push_neg
    exact Int.ofNat_nonneg n
  have hbl : bitLen n ≤ 53 := bitLenF_le 1100 53 n h (by omega)
  have hrd : roundToDouble n = n := by
    rw [roundToDouble]
    simp only [hbl, if_pos]
  rw [jsNumToString, if_neg hnn, hna, hrd, doubleToString, if_pos hbl]

/-- C2 counterexample to the idea that the id 123456789123456789 supplied
as text or as a number is the same identity. A JS number is a double: the
integer literal 123456789123456789 rounds at parse time to the double
123456789123456784, whose shortest round-trip decimal is
"123456789123456780", so the number form misses the page carrying the
text id "123456789123456789" in getResponsePageByPageId and is appended
as a new element, not deduplicated, by makeParamsWithNumeric (the
repository's own precision tests assert exactly these two behaviours). -/
theorem C2_counterexample :
    roundToDouble 123456789123456789 = 123456789123456784 ∧
    (JSPrim.n 123456789123456789).toStr = "123456789123456780" ∧
    (JSPrim.n 123456789123456789).toStr ≠ (JSPrim.s "123456789123456789").toStr ∧
    getResponsePageByPageId
      ⟨some { pages := some (.arr [JVal.vObj [("pageid", JVal.vStr "123456789123456789")]]) }, none⟩
      (JSPrim.n 123456789123456789) = .ok none ∧
    (makeParamsWithNumeric "pageids" [("pageids", PVal.arrRef 0)]
        (JSPrim.n 123456789123456789)
        ⟨[(0, [JSPrim.s "123456789123456789"])], 1⟩).map (fun ph => (ph.1, ph.2.get 1)) =
      .ok ([("pageids", PVal.arrRef 1), ("action", PVal.str "query")],
        [JSPrim.s "123456789123456789", JSPrim.s "123456789123456780"]) :=
  ⟨rfl, rfl, by decide, rfl, rfl⟩

/-- C2 (amended): id identity comparison happens on the strings produced
by the JS number-to-string conversion, which is decimal-exact within
double precision but rounds beyond it. In general, over an array-shaped
collection whose pages carry string or number page ids, the lookup
returns exactly the first page whose id string equals the searched id
string. Within double precision (below 2^53) a numeric id stringifies to
its exact decimal, so number and text forms are one identity. The text
ids 123456789123456789 and 123456789123456788 are different identities,
and a text id matches the page carrying exactly that decimal. Beyond
double precision a numeric id denotes its rounded double: the number
123456789123456780 and the text "123456789123456780" are the same
identity (the page scan finds the page and makeParamsWithNumeric
deduplicates), while distinct text ids are always kept distinct. -/
theorem C2_decimal_exact_ids :
    (∀ (ps : List JVal) (id : JSPrim),
      (∀ p ∈ ps, ∃ x : JSPrim, jGet p "pageid" = some (primToJVal x)) →
      findPageByIdIn id.toStr ps = .ok (ps.find? (fun p =>
        match jGet p "pageid" with
        | some (.vStr s) => id.toStr == s
        | some (.vNum n) => id.toStr == jsNumToString n
        | _ => false))) ∧
    (∀ n : Nat, n < 2 ^ 53 → (JSPrim.n (n : Int)).toStr = Nat.repr n) ∧
    (getResponsePageByPageId
        ⟨some { pages := some (.arr [JVal.vObj [("pageid", JVal.vStr "123456789123456788")]] ) }, none⟩
        (JSPrim.s "123456789123456789") = .ok none ∧
      getResponsePageByPageId
        ⟨some { pages := some (.arr [JVal.vObj [("pageid", JVal.vStr "123456789123456789")]] ) }, none⟩
        (JSPrim.s "123456789123456789") =
        .ok (some (JVal.vObj [("pageid", JVal.vStr "123456789123456789")]))) ∧
    ((JSPrim.n 123456789123456780).toStr = "123456789123456780" ∧
      getResponsePageByPageId
        ⟨some { pages := some (.arr [JVal.vObj [("pageid", JVal.vStr "123456789123456780")]] ) }, none⟩
        (JSPrim.n 123456789123456780) =
        .ok (some (JVal.vObj [("pageid", JVal.vStr "123456789123456780")])) ∧
      (makeParamsWithNumeric "pageids" [("pageids", PVal.arrRef 0)]
        (JSPrim.n 123456789123456780)
        ⟨[(0, [JSPrim.s "123456789123456780"])], 1⟩).map (fun ph => (ph.1, ph.2.get 1)) =
      .ok ([("pageids", PVal.arrRef 1), ("action", PVal.str "query")],
        [JSPrim.s "123456789123456780"]) ∧
      (makeParamsWithNumeric "pageids" [("pageids", PVal.arrRef 0)]
        (JSPrim.s "123456789123456788")
        ⟨[(0, [JSPrim.s "123456789123456789"])], 1⟩).map (fun ph => (ph.1, ph.2.get 1)) =
      .ok ([("pageids", PVal.arrRef 1), ("action", PVal.str "query")],
        [JSPrim.s "123456789123456789", JSPrim.s "123456789123456788"])) := by
  refine ⟨?_, fun n h => jsNumToString_small n h, ⟨rfl, rfl⟩, ⟨rfl, rfl, rfl, rfl⟩⟩
  intro ps id h
  induction ps with
  | nil => rfl
  | cons page rest ih =>
    obtain ⟨x, hx⟩ := h page (List.mem_cons_self _ _)
    have hrest := fun p hp => h p (List.mem_cons_of_mem _ hp)
    cases x with
    | s v =>
      simp only [findPageByIdIn, hx, primToJVal, jsToString, List.find?]
      by_cases hc : (id.toStr == v) = true
      · rw [hc]
        rfl
      · have hc' : (id.toStr == v) = false := by simpa using hc
        rw [hc']
        exact ih hrest
    | n nv =>
      simp only [findPageByIdIn, hx, primToJVal, jsToString, List.find?]
      by_cases hc : (id.toStr == jsNumToString nv) = true
      · rw [hc]
        rfl
      · have hc' : (id.toStr == jsNumToString nv) = false := by simpa using hc
        rw [hc']
        exact ih hrest

/-- C2 witness: the general string characterization applied to one
concrete page list and id, and the exact-decimal stringification of a
concrete id within double precision. -/
theorem C2_witness :
    (findPageByIdIn (JSPrim.n 123).toStr [JVal.vObj [("pageid", JVal.vStr "123")]] =
      .ok (List.find? (fun p =>
        match jGet p "pageid" with
        | some (.vStr s) => (JSPrim.n 123).toStr == s
        | some (.vNum n) => (JSPrim.n 123).toStr == jsNumToString n
        | _ => false) [JVal.vObj [("pageid", JVal.vStr "123")]])) ∧
    (JSPrim.n (123 : Nat)).toStr = Nat.repr 123 :=
  ⟨C2_decimal_exact_ids.1 [JVal.vObj [("pageid", JVal.vStr "123")]] (JSPrim.n 123)
    (fun p hp => by
      rw [List.mem_singleton.mp hp]
      exact ⟨JSPrim.s "123", rfl⟩),
   C2_decimal_exact_ids.2.1 123 (by decide)⟩

/-! Claim theorems for the params-shaping helpers. -/

theorem nat_beq_false_of_lt {r n : Nat} (h : r < n) : (r == n) = false := by
  simp only [beq_eq_false_iff_ne, ne_eq]
  omega

theorem lookup_store_cons_ne {store : List (Nat × List JSPrim)} {r n : Nat}
    (hne : (r == n) = false) (xs : List JSPrim) :
    ((n, xs) :: store).lookup r = store.lookup r := by
  rw [List.lookup, hne]

/-- C9: the params-shaping helpers construct fresh Sets and Arrays instead
of mutating the caller's: every heap reference allocated before the call
holds the same contents afterwards, for makeParamsWithString and
makeParamsWithNumeric (makeParams touches no collection at all, and the
params object itself is only read: the result is a fresh object built by
spreading). -/
theorem C9_params_not_mutated :
    (∀ (paramName : String) (params : Params) (paramValue : String) (h : PHeap)
      (r : Nat) (ps : Params) (h' : PHeap),
      r < h.next →
      makeParamsWithString paramName params paramValue h = .ok (ps, h') →
      h'.store.lookup r = h.store.lookup r) ∧
    (∀ (paramName : String) (params : Params) (paramValue : JSPrim) (h : PHeap)
      (r : Nat) (ps : Params) (h' : PHeap),
      r < h.next →
      makeParamsWithNumeric paramName params paramValue h = .ok (ps, h') →
      h'.store.lookup r = h.store.lookup r) := by
  constructor
  · intro paramName params paramValue h r ps h' hr heq
    have hne : (r == h.next) = false := nat_beq_false_of_lt hr
    cases hlp : params.lookup paramName with
    | none =>
      simp only [makeParamsWithString, hlp, PHeap.alloc] at heq
      cases hmp : makeParams (setParam params paramName (PVal.setRef h.next)) with
      | error e =>
        rw [hmp] at heq
        simp [Except.map] at heq
      | ok ps2 =>
        rw [hmp] at heq
        simp only [Except.map, Except.ok.injEq, Prod.mk.injEq] at heq
        obtain ⟨-, hh⟩ := heq
        subst hh
        exact lookup_store_cons_ne hne _
    | some pv =>
      cases pv with
      | str sv =>
        simp only [makeParamsWithString, hlp, PHeap.alloc] at heq
        cases hmp : makeParams (setParam params paramName (PVal.setRef h.next)) with
        | error e =>
          rw [hmp] at heq
          simp [Except.map] at heq
        | ok ps2 =>
          rw [hmp] at heq
          simp only [Except.map, Except.ok.injEq, Prod.mk.injEq] at heq
          obtain ⟨-, hh⟩ := heq
          subst hh
          exact lookup_store_cons_ne hne _
      | num nv =>
        simp only [makeParamsWithString, hlp] at heq
        exact absurd heq (by simp)
      | setRef r0 =>
        simp only [makeParamsWithString, hlp, PHeap.alloc, PHeap.update, PHeap.get] at heq
        cases hmp : makeParams (setParam params paramName (PVal.setRef h.next)) with
        | error e =>
          rw [hmp] at heq
          simp [Except.map] at heq
        | ok ps2 =>
          rw [hmp] at heq
          simp only [Except.map, Except.ok.injEq, Prod.mk.injEq] at heq
          obtain ⟨-, hh⟩ := heq
          subst hh
          rw [lookup_store_cons_ne hne, lookup_store_cons_ne hne]
      | arrRef r0 =>
        simp only [makeParamsWithString, hlp, PHeap.alloc, PHeap.get] at heq
        by_cases hc : ((h.store.lookup r0).getD []).contains (JSPrim.s paramValue) = true
        · rw [if_pos hc] at heq
          cases hmp : makeParams (setParam params paramName (PVal.arrRef r0)) with
          | error e =>
            rw [hmp] at heq
            simp [Except.map] at heq
          | ok ps2 =>
            rw [hmp] at heq
            simp only [Except.map, Except.ok.injEq, Prod.mk.injEq] at heq
            obtain ⟨-, hh⟩ := heq
            subst hh
            rfl
        · rw [if_neg hc] at heq
          cases hmp : makeParams (setParam params paramName (PVal.arrRef h.next)) with
          | error e =>
            rw [hmp] at heq
            simp [Except.map] at heq
          | ok ps2 =>
            rw [hmp] at heq
            simp only [Except.map, Except.ok.injEq, Prod.mk.injEq] at heq
            obtain ⟨-, hh⟩ := heq
            subst hh
            exact lookup_store_cons_ne hne _
  · intro paramName params paramValue h r ps h' hr heq
    have hne : (r == h.next) = false := nat_beq_false_of_lt hr
    cases hlp : params.lookup paramName with
    | none =>
      simp only [makeParamsWithNumeric, hlp, PHeap.alloc] at heq
      cases hmp : makeParams (setParam params paramName (PVal.setRef h.next)) with
      | error e =>
        rw [hmp] at heq
        simp [Except.map] at heq
      | ok ps2 =>
        rw [hmp] at heq
        simp only [Except.map, Except.ok.injEq, Prod.mk.injEq] at heq
        obtain ⟨-, hh⟩ := heq
        subst hh
        exact lookup_store_cons_ne hne _
    | some pv =>
      cases pv with
      | str sv =>
        simp only [makeParamsWithNumeric, hlp, PHeap.alloc] at heq
        cases hmp : makeParams (setParam params paramName (PVal.setRef h.next)) with
        | error e =>
          rw [hmp] at heq
          simp [Except.map] at heq
        | ok ps2 =>
          rw [hmp] at heq
          simp only [Except.map, Except.ok.injEq, Prod.mk.injEq] at heq
          obtain ⟨-, hh⟩ := heq
          subst hh
          exact lookup_store_cons_ne hne _
      | num nv =>
        simp only [makeParamsWithNumeric, hlp, PHeap.alloc] at heq
        cases hmp : makeParams (setParam params paramName (PVal.setRef h.next)) with
        | error e =>
          rw [hmp] at heq
          simp [Except.map] at heq
        | ok ps2 =>
          rw [hmp] at heq
          simp only [Except.map, Except.ok.injEq, Prod.mk.injEq] at heq
          obtain ⟨-, hh⟩ := heq
          subst hh
          exact lookup_store_cons_ne hne _
      | setRef r0 =>
        simp only [makeParamsWithNumeric, hlp, PHeap.alloc, PHeap.update, PHeap.get] at heq
        cases hmp : makeParams (setParam params paramName (PVal.setRef h.next)) with
        | error e =>
          rw [hmp] at heq
          simp [Except.map] at heq
        | ok ps2 =>
          rw [hmp] at heq
          simp only [Except.map, Except.ok.injEq, Prod.mk.injEq] at heq
          obtain ⟨-, hh⟩ := heq
          subst hh
          rw [lookup_store_cons_ne hne, lookup_store_cons_ne hne]
      | arrRef r0 =>
        simp only [makeParamsWithNumeric, hlp, PHeap.alloc, PHeap.update, PHeap.get] at heq
        by_cases hc : (((h.store.lookup r0).getD []).map
            (fun e => JSPrim.s e.toStr)).contains (JSPrim.s paramValue.toStr) = true
        · rw [if_pos hc] at heq
          cases hmp : makeParams (setParam params paramName (PVal.arrRef h.next)) with
          | error e =>
            rw [hmp] at heq
            simp [Except.map] at heq
          | ok ps2 =>
            rw [hmp] at heq
            simp only [Except.map, Except.ok.injEq, Prod.mk.injEq] at heq
            obtain ⟨-, hh⟩ := heq
            subst hh
            exact lookup_store_cons_ne hne _
        · rw [if_neg hc] at heq
          cases hmp : makeParams (setParam params paramName (PVal.arrRef h.next)) with
          | error e =>
            rw [hmp] at heq
            simp [Except.map] at heq
          | ok ps2 =>
            rw [hmp] at heq
            simp only [Except.map, Except.ok.injEq, Prod.mk.injEq] at heq
            obtain ⟨-, hh⟩ := heq
            subst hh
            rw [lookup_store_cons_ne hne, lookup_store_cons_ne hne]

/-- C9 witness: adding a title to params whose titles Set lives at heap
reference 0 leaves reference 0 unchanged. -/
theorem C9_witness :
    (0 : Nat) < (1 : Nat) ∧
    makeParamsWithString "titles" [("titles", PVal.setRef 0)] "New"
      ⟨[(0, [JSPrim.s "Old"])], 1⟩ =
      .ok ([("titles", PVal.setRef 1), ("action", PVal.str "query")],
        ⟨[(1, [JSPrim.s "Old", JSPrim.s "New"]), (1, [JSPrim.s "Old"]), (0, [JSPrim.s "Old"])], 2⟩) ∧
    (⟨[(1, [JSPrim.s "Old", JSPrim.s "New"]), (1, [JSPrim.s "Old"]), (0, [JSPrim.s "Old"])], 2⟩ :
      PHeap).store.lookup 0 =
      (⟨[(0, [JSPrim.s "Old"])], 1⟩ : PHeap).store.lookup 0 :=
  ⟨by decide, rfl,
    C9_params_not_mutated.1 "titles" [("titles", PVal.setRef 0)] "New"
      ⟨[(0, [JSPrim.s "Old"])], 1⟩ 0
      [("titles", PVal.setRef 1), ("action", PVal.str "query")]
      ⟨[(1, [JSPrim.s "Old", JSPrim.s "New"]), (1, [JSPrim.s "Old"]), (0, [JSPrim.s "Old"])], 2⟩
      (by decide) rfl⟩

/-! Claim theorems for the empty-response governor (modelled from the
spec; see the governorRun definitions). -/

theorem governorRunAux_fail {L : Nat} :
    ∀ (k counter : Nat) (rest : List Nat),
    counter ≤ L → L < counter + k →
    governorRunAux (some L) counter (List.replicate k 0 ++ rest) = .error ⟨⟩ := by
  intro k
  induction k with
  | zero =>
    intro counter rest h1 h2
    omega
  | succ m ih =>
    intro counter rest h1 h2
    simp only [List.replicate, List.cons_append, governorRunAux]
    rw [if_pos (by decide : ((0 : Nat) == 0) = true)]
    by_cases hc : counter + 1 > L
    · rw [if_pos hc]
    · rw [if_neg hc]
      exact ih (counter + 1) rest (by omega) (by omega)

theorem governorRunAux_ok_replicate {L p : Nat} (hp : 0 < p) :
    ∀ (k counter : Nat), counter + k ≤ L →
    governorRunAux (some L) counter (List.replicate k 0 ++ [p]) = .ok () := by
  intro k
  induction k with
  | zero =>
    intro counter h
    simp only [List.replicate, List.nil_append, governorRunAux]
    have hpb : (p == 0) = false := by
      simp only [beq_eq_false_iff_ne, ne_eq]
      omega
    rw [if_neg (by simp [hpb])]
  | succ m ih =>
    intro counter h
    simp only [List.replicate, List.cons_append, governorRunAux]
    rw [if_pos (by decide : ((0 : Nat) == 0) = true)]
    rw [if_neg (by omega : ¬counter + 1 > L)]
    exact ih (counter + 1) (by omega)

theorem leadZeros_get {l : List Nat} : ∀ {i : Nat}, i < leadZeros l → l.get? i = some 0 := by
  induction l with
  | nil =>
    intro i hi
    simp [leadZeros] at hi
  | cons c rest ih =>
    intro i hi
    by_cases hc : (c == 0) = true
    · have hc0 : c = 0 := by simpa using hc
      subst hc0
      cases i with
      | zero => rfl
      | succ j =>
        have hl : leadZeros (0 :: rest) = leadZeros rest + 1 := by simp [leadZeros]
        rw [hl] at hi
        simpa [List.get?] using ih (by omega)
    · simp only [leadZeros, if_neg hc] at hi
      omega

theorem governorRunAux_ok_within {L : Nat} :
    ∀ (counts : List Nat) (counter : Nat),
    counter + leadZeros counts ≤ L →
    (∀ i c, counts.get? i = some c → 0 < c → leadZeros (counts.drop (i + 1)) ≤ L) →
    governorRunAux (some L) counter counts = .ok () := by
  intro counts
  induction counts with
  | nil =>
    intro counter _ _
    rfl
  | cons c rest ih =>
    intro counter h1 h2
    by_cases hc : c = 0
    · subst hc
      have hlz : leadZeros (0 :: rest) = leadZeros rest + 1 := by
        simp [leadZeros]
      rw [hlz] at h1
      simp only [governorRunAux]
      rw [if_pos (by decide : ((0 : Nat) == 0) = true)]
      rw [if_neg (by omega : ¬counter + 1 > L)]
      refine ih (counter + 1) (by omega) ?_
      intro i cc hg hcc
      have := h2 (i + 1) cc (by simpa [List.get?] using hg) hcc
      simpa [List.drop] using this
    · simp only [governorRunAux]
      have hcb : (c == 0) = false := by simpa using hc
      rw [if_neg (by simp [hcb])]
      refine ih 0 ?_ ?_
      · have := h2 0 c rfl (Nat.pos_of_ne_zero hc)
        simpa using this
      · intro i cc hg hcc
        have := h2 (i + 1) cc (by simpa [List.get?] using hg) hcc
        simpa [List.drop] using this

theorem governorRunAux_none :
    ∀ (counts : List Nat) (counter : Nat), governorRunAux none counter counts = .ok () := by
  intro counts
  induction counts with
  | nil => intro counter; rfl
  | cons c rest ih =>
    intro counter
    simp only [governorRunAux]
    by_cases hc : (c == 0) = true
    · rw [if_pos hc]
      exact ih (counter + 1)
    · rw [if_neg hc]
      exact ih 0

/-- C1: the empty-response governor with a configured limit L accepts a run
of L consecutive empty responses followed by a productive one; fails with
TooManyEmptyResponsesError as soon as L + 1 consecutive empty responses
occur, whatever follows; accepts any sequence in which every empty response
is followed within L steps by a productive one, regardless of the total
number of empty responses; and applies no bound at all when no limit is
configured. Counts are the per-response entity counts of the logical
request, as folded by queryFullPages or queryFullRevisions
(responsePagesCount). -/
theorem C1_governor_bounds_consecutive_empties :
    (∀ (L p : Nat), 0 < p →
      governorRun (some L) (List.replicate L 0 ++ [p]) = .ok ()) ∧
    (∀ (L : Nat) (rest : List Nat),
      governorRun (some L) (List.replicate (L + 1) 0 ++ rest) = .error ⟨⟩) ∧
    (∀ (L : Nat) (counts : List Nat),
      (∀ i c, counts.get? i = some c → c = 0 →
        ∃ j cj, i < j ∧ j ≤ i + L ∧ counts.get? j = some cj ∧ 0 < cj) →
      governorRun (some L) counts = .ok ()) ∧
    (∀ (counts : List Nat), governorRun none counts = .ok ()) := by
  refine ⟨?_, ?_, ?_, ?_⟩
  · intro L p hp
    exact governorRunAux_ok_replicate hp L 0 (by omega)
  · intro L rest
    exact governorRunAux_fail (L + 1) 0 rest (by omega) (by omega)
  · intro L counts h
    refine governorRunAux_ok_within counts 0 ?_ ?_
    · -- no more than L leading zeros
      by_contra hnot
      have hz : counts.get? 0 = some 0 := leadZeros_get (by omega)
      obtain ⟨j, cj, hj1, hj2, hj3, hj4⟩ := h 0 0 hz rfl
      have : counts.get? j = some 0 := leadZeros_get (by omega)
      rw [this] at hj3
      have : cj = 0 := by simpa using hj3.symm
      omega
    · -- after a productive response, no more than L zeros follow
      intro i c hg hc
      by_contra hnot
      have hz : counts.get? (i + 1) = some 0 := by
        have := leadZeros_get (l := counts.drop (i + 1)) (i := 0) (by omega)
        simpa [List.get?_drop] using this
      obtain ⟨j, cj, hj1, hj2, hj3, hj4⟩ := h (i + 1) 0 hz rfl
      have hz2 : counts.get? j = some 0 := by
        have := leadZeros_get (l := counts.drop (i + 1)) (i := j - (i + 1)) (by omega)
        rw [List.get?_drop] at this
        have harith : i + 1 + (j - (i + 1)) = j := by omega
        rwa [harith] at this
      rw [hz2] at hj3
      have : cj = 0 := by simpa using hj3.symm
      omega
  · intro counts
    exact governorRunAux_none counts 0

/-- C1 witness: the governor at limit 3 on concrete count sequences. -/
theorem C1_witness :
    governorRun (some 3) [0, 0, 0, 5] = .ok () ∧
    governorRun (some 3) [0, 0, 0, 0] = .error ⟨⟩ ∧
    governorRun (some 3) [0, 2, 0, 0, 0, 1, 0, 3] = .ok () ∧
    governorRun none [0, 0, 0, 0, 0, 0] = .ok () := by
  refine ⟨C1_governor_bounds_consecutive_empties.1 3 5 (by omega),
    C1_governor_bounds_consecutive_empties.2.1 3 [],
    C1_governor_bounds_consecutive_empties.2.2.1 3 [0, 2, 0, 0, 0, 1, 0, 3] ?_,
    C1_governor_bounds_consecutive_empties.2.2.2 [0, 0, 0, 0, 0, 0]⟩
  intro i c hg hc
  have hi : i < 8 := by
    by_contra hnot
    rw [List.get?_eq_none.mpr (by simpa using Nat.le_of_not_lt hnot)] at hg
    cases hg
  interval_cases i
  · exact ⟨1, 2, by omega, by omega, rfl, by omega⟩
  · refine absurd hc (by simp at hg; omega)
  · exact ⟨5, 1, by omega, by omega, rfl, by omega⟩
  · exact ⟨5, 1, by omega, by omega, rfl, by omega⟩
  · exact ⟨5, 1, by omega, by omega, rfl, by omega⟩
  · refine absurd hc (by simp at hg; omega)
  · exact ⟨7, 3, by omega, by omega, rfl, by omega⟩
  · refine absurd hc (by simp at hg; omega)

/-! Claim theorems for the batch aggregation of queryFullPages. -/

theorem reduceBatchesAux_cons_err {σ : Type} {reducer : σ → Response → Except String σ}
    {initial : Unit → σ} {acc : σ} {r : Response} {e : String} (l : List Response)
    (hred : reducer acc r = .error e) :
    reduceBatchesAux reducer initial acc (r :: l) = .error e := by
  simp only [reduceBatchesAux, hred]

theorem reduceBatchesAux_cons_ok {σ : Type} {reducer : σ → Response → Except String σ}
    {initial : Unit → σ} {acc acc2 : σ} {r : Response} (l : List Response)
    (hred : reducer acc r = .ok acc2) (hbc : r.batchcomplete.isSome = true) :
    reduceBatchesAux reducer initial acc (r :: l) =
      (match reduceBatchesAux reducer initial (initial ()) l with
       | .error e => .error e
       | .ok out => .ok (acc2 :: out)) := by
  simp only [reduceBatchesAux, hred, if_pos hbc]

theorem reduceBatchesAux_cons_mid {σ : Type} {reducer : σ → Response → Except String σ}
    {initial : Unit → σ} {acc acc2 : σ} {r : Response} (l : List Response)
    (hred : reducer acc r = .ok acc2) (hbc : ¬r.batchcomplete.isSome = true) :
    reduceBatchesAux reducer initial acc (r :: l) =
      reduceBatchesAux reducer initial acc2 l := by
  simp only [reduceBatchesAux, hred, if_neg hbc]

theorem reduceBatchesAux_append {σ : Type} (reducer : σ → Response → Except String σ)
    (initial : Unit → σ) :
    ∀ (xs ys : List Response) (acc : σ),
    xs ≠ [] →
    endsBatchComplete xs →
    reduceBatchesAux reducer initial acc (xs ++ ys) =
      (match reduceBatchesAux reducer initial acc xs,
             reduceBatchesAux reducer initial (initial ()) ys with
       | .ok o1, .ok o2 => .ok (o1 ++ o2)
       | .error e, _ => .error e
       | .ok _, .error e => .error e) := by
  intro xs
  induction xs with
  | nil =>
    intro ys acc hne _
    exact absurd rfl hne
  | cons r rest ih =>
    intro ys acc hne hend
    cases hred : reducer acc r with
    | error e =>
      rw [List.cons_append, reduceBatchesAux_cons_err (rest ++ ys) hred,
        reduceBatchesAux_cons_err rest hred]
    | ok acc' =>
      by_cases hbc : r.batchcomplete.isSome = true
      · cases rest with
        | nil =>
          rw [List.cons_append, List.nil_append,
            reduceBatchesAux_cons_ok ys hred hbc,
            reduceBatchesAux_cons_ok [] hred hbc]
          cases haux : reduceBatchesAux reducer initial (initial ()) ys with
          | error e => rfl
          | ok o2 => rfl
        | cons r2 rest2 =>
          have hend' : endsBatchComplete (r2 :: rest2) := by
            intro x hx
            refine hend x ?_
            rw [List.getLast?_cons_cons]
            exact hx
          have hihr := ih ys (initial ()) (by simp) hend'
          rw [List.cons_append,
            reduceBatchesAux_cons_ok ((r2 :: rest2) ++ ys) hred hbc,
            reduceBatchesAux_cons_ok (r2 :: rest2) hred hbc,
            hihr]
          cases h1 : reduceBatchesAux reducer initial (initial ()) (r2 :: rest2) with
          | error e => rfl
          | ok o1 =>
            cases h2 : reduceBatchesAux reducer initial (initial ()) ys with
            | error e => rfl
            | ok o2 => rfl
      · cases rest with
        | nil =>
          have : r.batchcomplete.isSome = true := hend r rfl
          exact absurd this hbc
        | cons r2 rest2 =>
          have hend' : endsBatchComplete (r2 :: rest2) := by
            intro x hx
            refine hend x ?_
            rw [List.getLast?_cons_cons]
            exact hx
          rw [List.cons_append,
            reduceBatchesAux_cons_mid ((r2 :: rest2) ++ ys) hred hbc,
            reduceBatchesAux_cons_mid (r2 :: rest2) hred hbc]
          exact ih ys acc' (by simp) hend'

/-- C8: queryFullPages never carries state across a batch boundary. In
general, over any response stream split at a batch boundary, the result is
the concatenation of the runs processed with a fresh (empty) keyed
accumulator each; concretely, two one-response batches that return
conflicting attribute values under the same page id raise no merge
conflict, and the later batch yields the later page standalone. -/
theorem C8_no_merge_across_batches :
    (∀ (mv : MergeFn) (responses1 responses2 : List Response),
      responses1 ≠ [] →
      endsBatchComplete responses1 →
      queryFullPages mv (responses1 ++ responses2) =
        (match queryFullPages mv responses1, queryFullPages mv responses2 with
         | .ok b1, .ok b2 => .ok (b1 ++ b2)
         | .error e, _ => .error e
         | .ok _, .error e => .error e)) ∧
    queryFullPages defaultMergeFn
      [⟨some { pages := some (.arr [JVal.vObj [("pageid", JVal.vNum 1), ("x", JVal.vBool true)]]) },
         some (.vBool true)⟩,
       ⟨some { pages := some (.arr [JVal.vObj [("pageid", JVal.vNum 1), ("x", JVal.vBool false)]]) },
         some (.vBool true)⟩] =
      .ok [[JVal.vObj [("pageid", JVal.vNum 1), ("x", JVal.vBool true)]],
           [JVal.vObj [("pageid", JVal.vNum 1), ("x", JVal.vBool false)]]] := by
  refine ⟨?_, rfl⟩
  intro mv responses1 responses2 hne hend
  simp only [queryFullPages, requestAndContinueReducingBatch]
  rw [reduceBatchesAux_append (queryFullPagesReducer mv) (fun _ => []) responses1 responses2
    [] hne hend]
  cases h1 : reduceBatchesAux (queryFullPagesReducer mv) (fun _ => []) [] responses1 with
  | error e => rfl
  | ok o1 =>
    cases h2 : reduceBatchesAux (queryFullPagesReducer mv) (fun _ => []) [] responses2 with
    | error e => rfl
    | ok o2 =>
      simp [Except.map, List.map_append]

/-- C8 witness: the batch-boundary factorization at two concrete
single-response batches with conflicting page values. -/
theorem C8_witness :
    queryFullPages defaultMergeFn
      ([⟨some { pages := some (.arr [JVal.vObj [("pageid", JVal.vNum 1), ("x", JVal.vBool true)]]) },
          some (.vBool true)⟩] ++
       [⟨some { pages := some (.arr [JVal.vObj [("pageid", JVal.vNum 1), ("x", JVal.vBool false)]]) },
          some (.vBool true)⟩]) =
      (match queryFullPages defaultMergeFn
          [⟨some { pages := some (.arr [JVal.vObj [("pageid", JVal.vNum 1), ("x", JVal.vBool true)]]) },
            some (.vBool true)⟩],
        queryFullPages defaultMergeFn
          [⟨some { pages := some (.arr [JVal.vObj [("pageid", JVal.vNum 1), ("x", JVal.vBool false)]]) },
            some (.vBool true)⟩] with
       | .ok b1, .ok b2 => .ok (b1 ++ b2)
       | .error e, _ => .error e
       | .ok _, .error e => .error e) :=
  C8_no_merge_across_batches.1 defaultMergeFn
    [⟨some { pages := some (.arr [JVal.vObj [("pageid", JVal.vNum 1), ("x", JVal.vBool true)]]) },
       some (.vBool true)⟩]
    [⟨some { pages := some (.arr [JVal.vObj [("pageid", JVal.vNum 1), ("x", JVal.vBool false)]]) },
       some (.vBool true)⟩]
    (by simp)
    (fun x hx => by
      have hx2 : some
          (⟨some { pages := some (.arr [JVal.vObj [("pageid", JVal.vNum 1), ("x", JVal.vBool true)]]) },
            some (.vBool true)⟩ : Response) = some x := hx
      injection hx2 with hx3
      rw [← hx3]
      rfl)

/-! Claim theorems for redirect resolution: termination and cycles. -/

theorem length_filter_mono {α : Type} {p q : α → Bool}
    (himp : ∀ a, q a = true → p a = true) :
    ∀ (l : List α), (l.filter q).length ≤ (l.filter p).length := by
  intro l
  induction l with
  | nil => exact Nat.le_refl _
  | cons a l2 ih =>
    by_cases hq : q a = true
    · have hp : p a = true := himp a hq
      simp only [List.filter_cons, hq, hp, if_pos]
      simpa [List.length_cons] using ih
    · have hq2 : q a = false := by simpa using hq
      simp only [List.filter_cons, hq2]
      cases hp : p a with
      | false =>
        simp only [Bool.false_eq_true, if_neg, if_false]
        exact ih
      | true =>
        simp only [if_pos]
        exact Nat.le_succ_of_le ih

theorem length_filter_lt {α : Type} {p q : α → Bool} {l : List α} {x : α}
    (hx : x ∈ l) (hpx : p x = true) (hqx : q x = false)
    (himp : ∀ a, q a = true → p a = true) :
    (l.filter q).length < (l.filter p).length := by
  induction l with
  | nil => cases hx
  | cons a l2 ih =>
    rcases List.mem_cons.mp hx with he | hm
    · subst he
      simp only [List.filter_cons, hpx, hqx, if_pos]
      exact Nat.lt_succ_of_le (length_filter_mono himp l2)
    · by_cases hq : q a = true
      · have hp : p a = true := himp a hq
        simp only [List.filter_cons, hq, hp, if_pos]
        simpa [List.length_cons] using ih hm
      · have hq2 : q a = false := by simpa using hq
        simp only [List.filter_cons, hq2]
        cases hp : p a with
        | false =>
          simp only [Bool.false_eq_true, if_neg, if_false]
          exact ih hm
        | true =>
          simp only [if_pos]
          exact Nat.lt_succ_of_lt (ih hm)

theorem resolveRedirectsAux_isSome {redirects : List Redirect} :
    ∀ (fuel : Nat) (visited : List String) (title : String),
    visited.contains title = false →
    (redirects.filter (fun r => !(visited.contains r.fromT))).length < fuel →
    (resolveRedirectsAux redirects fuel visited title).isSome = true := by
  intro fuel
  induction fuel with
  | zero =>
    intro visited title _ hmea
    omega
  | succ m ih =>
    intro visited title hvis hmea
    cases hfind : redirects.find? (fun r => title == r.fromT) with
    | none => simp only [resolveRedirectsAux, hfind]; rfl
    | some r =>
      simp only [resolveRedirectsAux, hfind]
      have hmem : r ∈ redirects := List.mem_of_find?_eq_some hfind
      have hteq : title = r.fromT := by
        have := List.find?_some hfind
        simpa [beq_iff_eq] using this
      by_cases hvt : ((r.fromT :: visited).contains r.toT) = true
      · rw [if_pos hvt]
        rfl
      · rw [if_neg hvt]
        refine ih (r.fromT :: visited) r.toT (by simpa using hvt) ?_
        have hdec : (redirects.filter
            (fun r2 => !((r.fromT :: visited).contains r2.fromT))).length <
            (redirects.filter (fun r2 => !(visited.contains r2.fromT))).length := by
          refine length_filter_lt hmem ?_ ?_ ?_
          · rw [← hteq]
            simpa using hvis
          · simp [List.contains_cons]
          · intro a ha
            simp only [Bool.not_eq_true'] at ha ⊢
            simp only [List.contains_cons, Bool.or_eq_false_iff] at ha
            exact ha.2
        omega

theorem redirectIterate_add {rs : List Redirect} :
    ∀ (i j : Nat) (t : String),
    redirectIterate rs t (i + j) =
      (redirectIterate rs t i).bind (fun u => redirectIterate rs u j) := by
  intro i
  induction i with
  | zero =>
    intro j t
    simp [redirectIterate]
  | succ m ih =>
    intro j t
    have harith : m + 1 + j = (m + j) + 1 := by omega
    rw [harith]
    simp only [redirectIterate]
    cases hnext : redirectNext rs t with
    | none => rfl
    | some t2 => exact ih j t2

theorem redirectIterate_isSome_mono {rs : List Redirect} {t : String} {k m : Nat}
    (h : (redirectIterate rs t (k + m)).isSome = true) :
    (redirectIterate rs t k).isSome = true := by
  rw [redirectIterate_add] at h
  cases hk : redirectIterate rs t k with
  | none =>
    rw [hk] at h
    simp [Option.bind] at h
  | some u => rfl

theorem traj_total_of_revisit {rs : List Redirect} {t0 T : String} {i j : Nat}
    (hij : i < j)
    (hi : redirectIterate rs t0 i = some T)
    (hj : redirectIterate rs t0 j = some T) :
    ∀ k, (redirectIterate rs t0 k).isSome = true := by
  intro k
  induction k using Nat.strong_induction_on with
  | _ k ihk =>
    by_cases hk : k ≤ j
    · have : (redirectIterate rs t0 (k + (j - k))).isSome = true := by
        have harith : k + (j - k) = j := by omega
        rw [harith, hj]
        rfl
      exact redirectIterate_isSome_mono this
    · have hgt : j < k := by omega
      have hsmall : i + (k - j) < k := by omega
      have hval : redirectIterate rs t0 (i + (k - j)) =
          redirectIterate rs t0 k := by
        have h1 : redirectIterate rs t0 (i + (k - j)) =
            redirectIterate rs T (k - j) := by
          rw [redirectIterate_add, hi]
          rfl
        have h2 : redirectIterate rs t0 k = redirectIterate rs T (k - j) := by
          have harith : k = j + (k - j) := by omega
          conv_lhs => rw [harith]
          rw [redirectIterate_add, hj]
          rfl
        rw [h1, h2]
      have := ihk (i + (k - j)) hsmall
      rwa [hval] at this

theorem resolveRedirectsAux_cycle {rs : List Redirect} {t0 : String}
    (htotal : ∀ k, (redirectIterate rs t0 k).isSome = true) :
    ∀ (fuel : Nat) (visited : List String) (k : Nat) (title F : String),
    redirectIterate rs t0 k = some title →
    (∀ x, visited.contains x = true ↔ ∃ i, i < k ∧ redirectIterate rs t0 i = some x) →
    resolveRedirectsAux rs fuel visited title = some F →
    ∃ i j, i < j ∧ redirectIterate rs t0 i = some F ∧
      redirectIterate rs t0 j = some F := by
  intro fuel
  induction fuel with
  | zero =>
    intro visited k title F _ _ hres
    cases hres
  | succ m ih =>
    intro visited k title F htk hinv hres
    revert hres
    cases hfind : rs.find? (fun r => title == r.fromT) with
    | none =>
      simp only [resolveRedirectsAux, hfind]
      intro hres
      exfalso
      have hnext : redirectNext rs title = none := by
        simp [redirectNext, hfind]
      have : redirectIterate rs t0 (k + 1) = none := by
        rw [redirectIterate_add, htk]
        simp [redirectIterate, hnext]
      have hsome := htotal (k + 1)
      rw [this] at hsome
      cases hsome
    | some r =>
      simp only [resolveRedirectsAux, hfind]
      have hteq : title = r.fromT := by
        have := List.find?_some hfind
        simpa [beq_iff_eq] using this
      have hnext : redirectNext rs title = some r.toT := by
        simp [redirectNext, hfind]
      have htk1 : redirectIterate rs t0 (k + 1) = some r.toT := by
        rw [redirectIterate_add, htk]
        simp [redirectIterate, hnext]
      have hinv1 : ∀ x, ((r.fromT :: visited).contains x = true ↔
          ∃ i, i < k + 1 ∧ redirectIterate rs t0 i = some x) := by
        intro x
        constructor
        · intro hx
          simp only [List.contains_cons, Bool.or_eq_true, beq_iff_eq] at hx
          rcases hx with hx | hx
          · exact ⟨k, by omega, by rw [htk, hx, hteq]⟩
          · obtain ⟨i, hik, hix⟩ := (hinv x).mp hx
            exact ⟨i, by omega, hix⟩
        · intro ⟨i, hik, hix⟩
          simp only [List.contains_cons, Bool.or_eq_true, beq_iff_eq]
          by_cases hike : i = k
          · subst hike
            rw [htk] at hix
            have : title = x := by simpa using hix
            exact Or.inl (by rw [← this, hteq])
          · exact Or.inr ((hinv x).mpr ⟨i, by omega, hix⟩)
      by_cases hvt : ((r.fromT :: visited).contains r.toT) = true
      · rw [if_pos hvt]
        intro hres
        have hF : r.toT = F := by simpa using hres
        obtain ⟨i, hik, hix⟩ := (hinv1 r.toT).mp hvt
        exact ⟨i, k + 1, by omega, by rw [← hF]; exact hix, by rw [← hF]; exact htk1⟩
      · rw [if_neg hvt]
        intro hres
        exact ih (r.fromT :: visited) (k + 1) r.toT F htk1 hinv1 hres

/-- C7: redirect resolution in getResponsePageByTitle always terminates (the
embedded loop never exhausts its fuel: resolution always yields a title,
either one with no matching redirect entry or an already-visited one), and
on every response whose redirect entries contain a cycle reachable from the
(normalized) input title, getResponsePageByTitle returns null, provided no
page in the response carries a cycle member's title. -/
theorem C7_termination_and_cycle :
    (∀ (query : Query) (title : String),
      (resolveTitleInQuery query title).isSome = true) ∧
    (∀ (response : Response) (title : String) (query : Query) (rs : List Redirect),
      response.query = some query →
      query.redirects = some rs →
      (∃ i j T, i < j ∧
        redirectIterate rs (applyNormalized (query.normalized.getD []) title) i = some T ∧
        redirectIterate rs (applyNormalized (query.normalized.getD []) title) j = some T) →
      (∀ page ∈ pagesList query.pages, ∀ T, cycleMember rs T →
        ¬(jGet page "title" = some (.vStr T))) →
      getResponsePageByTitle response title = none) := by
  have hterm : ∀ (query : Query) (title : String),
      (resolveTitleInQuery query title).isSome = true := by
    intro query title
    refine resolveRedirectsAux_isSome _ [] _ rfl ?_
    calc ((query.redirects.getD []).filter
        (fun r => !(List.contains [] r.fromT))).length
        ≤ (query.redirects.getD []).length := List.length_filter_le _ _
      _ < (query.redirects.getD []).length + 1 := by omega
  refine ⟨hterm, ?_⟩
  intro response title query rs hq hrs hcyc hpages
  obtain ⟨i, j, T, hij, hTi, hTj⟩ := hcyc
  set t1 := applyNormalized (query.normalized.getD []) title with ht1
  have htotal := traj_total_of_revisit hij hTi hTj
  -- the resolution ends with some final title F
  have hsome := hterm query title
  obtain ⟨F, hF⟩ := Option.isSome_iff_exists.mp hsome
  have hFaux : resolveRedirectsAux rs (rs.length + 1) [] t1 = some F := by
    have : resolveTitleInQuery query title =
        resolveRedirectsAux rs (rs.length + 1) [] t1 := by
      simp [resolveTitleInQuery, hrs, ht1]
    rwa [this] at hF
  -- F is revisited on the trajectory, hence a cycle member
  obtain ⟨i2, j2, hij2, hFi, hFj⟩ :=
    resolveRedirectsAux_cycle htotal (rs.length + 1) [] 0 t1 F rfl
      (by
        intro x
        constructor
        · intro hx
          cases hx
        · intro ⟨i3, hi3, _⟩
          omega)
      hFaux
  have hFcycle : cycleMember rs F := by
    refine ⟨j2 - i2, by omega, ?_⟩
    have h1 : redirectIterate rs t1 (i2 + (j2 - i2)) =
        redirectIterate rs F (j2 - i2) := by
      rw [redirectIterate_add, hFi]
      rfl
    have harith : i2 + (j2 - i2) = j2 := by omega
    rw [harith, hFj] at h1
    exact h1.symm
  -- the page scan cannot find F
  have hq2 : response.query.getD {} = query := by rw [hq]; rfl
  simp only [getResponsePageByTitle, hq2]
  have : resolveTitleInQuery query title = some F := by
    rw [show resolveTitleInQuery query title =
        resolveRedirectsAux rs (rs.length + 1) [] t1 by simp [resolveTitleInQuery, hrs, ht1]]
    exact hFaux
  rw [this]
  simp only [findPageInPages]
  refine List.find?_eq_none.mpr ?_
  intro page hp
  cases hjt : jGet page "title" with
  | none =>
    simp only [hjt]
    exact fun h2 => Bool.noConfusion h2
  | some v =>
    cases v with
    | vStr t2 =>
      simp only [hjt]
      intro hpred
      have hFt : (F == t2) = true := hpred
      have ht2F : t2 = F := (beq_iff_eq.mp hFt).symm
      subst ht2F
      exact hpages page hp t2 hFcycle hjt
    | vNull =>
      simp only [hjt]
      exact fun h2 => Bool.noConfusion h2
    | vBool b =>
      simp only [hjt]
      exact fun h2 => Bool.noConfusion h2
    | vNum n =>
      simp only [hjt]
      exact fun h2 => Bool.noConfusion h2
    | vArr xs =>
      simp only [hjt]
      exact fun h2 => Bool.noConfusion h2
    | vObj fs =>
      simp only [hjt]
      exact fun h2 => Bool.noConfusion h2

/-- C7 witness: a two-entry redirect cycle A to B to A with a page titled C
resolves to null. -/
theorem C7_witness :
    getResponsePageByTitle
      ⟨some { pages := some (.arr [JVal.vObj [("title", JVal.vStr "C")]]),
              redirects := some [⟨"A", "B"⟩, ⟨"B", "A"⟩] }, none⟩ "A" = none := by
  refine C7_termination_and_cycle.2
    ⟨some { pages := some (.arr [JVal.vObj [("title", JVal.vStr "C")]]),
            redirects := some [⟨"A", "B"⟩, ⟨"B", "A"⟩] }, none⟩ "A"
    { pages := some (.arr [JVal.vObj [("title", JVal.vStr "C")]]),
      redirects := some [⟨"A", "B"⟩, ⟨"B", "A"⟩] }
    [⟨"A", "B"⟩, ⟨"B", "A"⟩] rfl rfl
    ⟨0, 2, "A", by omega, rfl, rfl⟩ ?_
  intro page hp T hcm heq
  have hp2 : page ∈ [JVal.vObj [("title", JVal.vStr "C")]] := hp
  have hpc : page = JVal.vObj [("title", JVal.vStr "C")] := by
    simpa using hp2
  subst hpc
  have hTC : T = "C" := by
    have h0 : some (JVal.vStr "C") = some (JVal.vStr T) := heq
    injection h0 with h1
    injection h1 with h2
    exact h2.symm
  subst hTC
  obtain ⟨k, hk0, hk⟩ := hcm
  cases k with
  | zero => omega
  | succ m =>
    have : redirectIterate [(⟨"A", "B"⟩ : Redirect), ⟨"B", "A"⟩] "C" (m + 1) = none := rfl
    rw [this] at hk
    cases hk

/-! Claim theorems for redirect chains: order independence. -/

theorem find?_eq_of_unique {α : Type} {p : α → Bool} {l : List α} {x : α}
    (hx : x ∈ l) (hpx : p x = true) (hu : ∀ y ∈ l, p y = true → y = x) :
    l.find? p = some x := by
  induction l with
  | nil => cases hx
  | cons a l2 ih =>
    cases ha : p a with
    | true =>
      have he : a = x := hu a (List.mem_cons_self _ _) ha
      subst he
      simp [List.find?, ha]
    | false =>
      have hxl2 : x ∈ l2 := by
        rcases List.mem_cons.mp hx with he | hm
        · subst he
          rw [hpx] at ha
          cases ha
        · exact hm
      simp only [List.find?, ha]
      exact ih hxl2 (fun y hy hpy => hu y (List.mem_cons_of_mem _ hy) hpy)

theorem chainOf_sub_cons {l : List String} {a : String} {r : Redirect}
    (hr : r ∈ chainOf l) : r ∈ chainOf (a :: l) := by
  cases l with
  | nil => simp [chainOf] at hr
  | cons b l2 =>
    rw [chainOf]
    exact List.mem_cons_of_mem _ hr

theorem chainOf_adjacent : ∀ (pre : List String) (t t' : String) (suf : List String),
    (⟨t, t'⟩ : Redirect) ∈ chainOf (pre ++ t :: t' :: suf) := by
  intro pre
  induction pre with
  | nil =>
    intro t t' suf
    rw [List.nil_append, chainOf]
    exact List.mem_cons_self _ _
  | cons a pre2 ih =>
    intro t t' suf
    rw [List.cons_append]
    exact chainOf_sub_cons (ih t t' suf)

theorem chainOf_get : ∀ (ts : List String) (r : Redirect), r ∈ chainOf ts →
    ∃ i, ts.get? i = some r.fromT ∧ ts.get? (i + 1) = some r.toT := by
  intro ts
  induction ts with
  | nil =>
    intro r h
    simp [chainOf] at h
  | cons a rest ih =>
    intro r h
    cases rest with
    | nil => simp [chainOf] at h
    | cons b rest2 =>
      rw [chainOf] at h
      rcases List.mem_cons.mp h with he | hm
      · subst he
        exact ⟨0, rfl, rfl⟩
      · obtain ⟨i, h1, h2⟩ := ih r hm
        exact ⟨i + 1, by simpa [List.get?] using h1, by simpa [List.get?] using h2⟩

theorem chainOf_length : ∀ (ts : List String), (chainOf ts).length = ts.length - 1 := by
  intro ts
  induction ts with
  | nil => rfl
  | cons a rest ih =>
    cases rest with
    | nil => rfl
    | cons b rest2 =>
      rw [chainOf]
      rw [List.length_cons, ih]
      simp

theorem chainOf_unique {ts : List String} (hnd : ts.Nodup) {r s : Redirect}
    (hr : r ∈ chainOf ts) (hs : s ∈ chainOf ts) (he : r.fromT = s.fromT) : r = s := by
  obtain ⟨i, hi1, hi2⟩ := chainOf_get ts r hr
  obtain ⟨j, hj1, hj2⟩ := chainOf_get ts s hs
  have hilen : i < ts.length := by
    by_contra hn
    rw [List.get?_eq_none.mpr (by omega)] at hi1
    cases hi1
  have hij : i = j := List.get?_inj hilen hnd (by rw [hi1, he, hj1])
  subst hij
  have h2 : some r.toT = some s.toT := by rw [← hi2, hj2]
  obtain ⟨rf, rt⟩ := r
  obtain ⟨sf, st⟩ := s
  have he2 : rf = sf := he
  have h3 : rt = st := by
    injection h2
  rw [he2, h3]

theorem chainOf_fromT_ne_last {pre : List String} {t : String}
    (hnd : (pre ++ [t]).Nodup) :
    ∀ r ∈ chainOf (pre ++ [t]), r.fromT ≠ t := by
  intro r hr he
  obtain ⟨i, h1, h2⟩ := chainOf_get _ r hr
  have hlen : i + 1 < (pre ++ [t]).length := by
    by_contra hn
    rw [List.get?_eq_none.mpr (by omega)] at h2
    cases h2
  have hlast : (pre ++ [t]).get? pre.length = some t := List.get?_concat_length pre t
  have hlen2 : (pre ++ [t]).length = pre.length + 1 := by simp
  rw [he] at h1
  have hij : i = pre.length := List.get?_inj (by omega) hnd (by rw [h1, hlast])
  omega

theorem resolve_chain {rs : List Redirect} {ts : List String}
    (hnd : ts.Nodup) (hperm : rs.Perm (chainOf ts)) :
    ∀ (suf pre : List String) (t : String) (visited : List String),
    ts = pre ++ t :: suf →
    (∀ x, visited.contains x = true ↔ x ∈ pre) →
    resolveRedirectsAux rs (suf.length + 1) visited t = ts.getLast? := by
  intro suf
  induction suf with
  | nil =>
    intro pre t visited hts hvis
    have hfind : rs.find? (fun r => t == r.fromT) = none := by
      refine List.find?_eq_none.mpr ?_
      intro r hr
      have hrc : r ∈ chainOf (pre ++ [t]) := by
        have := hperm.mem_iff.mp hr
        rwa [hts] at this
      have hne := chainOf_fromT_ne_last (by rwa [hts] at hnd) r hrc
      simp only [Bool.not_eq_true, beq_eq_false_iff_ne, ne_eq]
      intro he
      exact hne he.symm
    simp only [List.length_nil, Nat.zero_add, resolveRedirectsAux, hfind]
    rw [hts, List.getLast?_concat]
  | cons t' suf2 ih =>
    intro pre t visited hts hvis
    have hxc : (⟨t, t'⟩ : Redirect) ∈ chainOf ts := by
      rw [hts]
      exact chainOf_adjacent pre t t' suf2
    have hmem : (⟨t, t'⟩ : Redirect) ∈ rs := hperm.mem_iff.mpr hxc
    have hfind : rs.find? (fun r => t == r.fromT) = some ⟨t, t'⟩ := by
      refine find?_eq_of_unique hmem (by simp) ?_
      intro y hy hpy
      have hyc : y ∈ chainOf ts := hperm.mem_iff.mp hy
      exact chainOf_unique hnd hyc hxc (beq_iff_eq.mp hpy).symm
    have hnd2 : (pre ++ t :: t' :: suf2).Nodup := by rwa [hts] at hnd
    have ht'pre : t' ∉ pre := by
      intro hmem2
      exact (List.nodup_append.mp hnd2).2.2 hmem2 (by simp)
    have ht't : (t' == t) = false := by
      have hh : t ∉ t' :: suf2 := (List.nodup_cons.mp (List.nodup_append.mp hnd2).2.1).1
      simp only [beq_eq_false_iff_ne, ne_eq]
      intro he
      exact hh (by rw [← he]; exact List.mem_cons_self _ _)
    have hcont : ((t :: visited).contains t') = false := by
      simp only [List.contains_cons, Bool.or_eq_false_iff]
      constructor
      · exact ht't
      · cases hcv : visited.contains t' with
        | false => rfl
        | true => exact absurd ((hvis t').mp hcv) ht'pre
    simp only [List.length_cons, resolveRedirectsAux, hfind]
    rw [if_neg (by simp only [hcont]; exact fun h => Bool.noConfusion h)]
    refine ih (pre ++ [t]) t' (t :: visited) ?_ ?_
    · rw [hts, List.append_assoc]
      rfl
    · intro x
      simp only [List.contains_cons, Bool.or_eq_true, beq_iff_eq, List.mem_append,
        List.mem_singleton]
      rw [hvis x]
      tauto

/-- C6: for every response whose redirect entries form a cycle-free chain
from the (already normalized) input title, in any document order (any
permutation of the chain entries), title resolution reaches the chain's
final target, and getResponsePageByTitle scans the pages for exactly that
final title. -/
theorem C6_chain_resolution :
    ∀ (t : String) (rest : List String) (rs : List Redirect) (query : Query) (last : String),
    (t :: rest).Nodup →
    rs.Perm (chainOf (t :: rest)) →
    query.redirects = some rs →
    (∀ n ∈ query.normalized.getD [], n.fromT ≠ t) →
    (t :: rest).getLast? = some last →
    resolveTitleInQuery query t = some last ∧
    ∀ (bc : Option JVal),
      getResponsePageByTitle ⟨some query, bc⟩ t =
        findPageInPages (pagesList query.pages) last := by
  intro t rest rs query last hnd hperm hrs hnorm hlast
  have hn : applyNormalized (query.normalized.getD []) t = t := by
    have hfind : (query.normalized.getD []).find? (fun n => t == n.fromT) = none := by
      refine List.find?_eq_none.mpr ?_
      intro n hn2
      simp only [Bool.not_eq_true, beq_eq_false_iff_ne, ne_eq]
      intro he
      exact hnorm n hn2 he.symm
    unfold applyNormalized
    rw [hfind]
  have hlen : rs.length = rest.length := by
    have h1 := hperm.length_eq
    rw [chainOf_length] at h1
    simpa using h1
  have hres : resolveTitleInQuery query t = some last := by
    unfold resolveTitleInQuery
    simp only [hrs, Option.getD_some, hn, hlen]
    have := resolve_chain hnd hperm rest [] t []
      (by rw [List.nil_append]) (by intro x; simp)
    rw [this, hlast]
  refine ⟨hres, ?_⟩
  intro bc
  simp only [getResponsePageByTitle]
  rw [show (Response.query ⟨some query, bc⟩).getD {} = query from rfl]
  rw [hres]

/-- C6 witness: the chain A to B to C with its entries permuted in the
response resolves to C. -/
theorem C6_witness :
    resolveTitleInQuery
      { pages := some (.arr [JVal.vObj [("title", JVal.vStr "C")]]),
        redirects := some [⟨"B", "C"⟩, ⟨"A", "B"⟩] } "A" = some "C" ∧
    ∀ (bc : Option JVal),
      getResponsePageByTitle
        ⟨some { pages := some (.arr [JVal.vObj [("title", JVal.vStr "C")]]),
                redirects := some [⟨"B", "C"⟩, ⟨"A", "B"⟩] }, bc⟩ "A" =
        findPageInPages
          (pagesList (some (.arr [JVal.vObj [("title", JVal.vStr "C")]]))) "C" :=
  C6_chain_resolution "A" ["B", "C"] [⟨"B", "C"⟩, ⟨"A", "B"⟩]
    { pages := some (.arr [JVal.vObj [("title", JVal.vStr "C")]]),
      redirects := some [⟨"B", "C"⟩, ⟨"A", "B"⟩] } "C"
    (by decide) (by decide) rfl
    (fun n hn => absurd hn (List.not_mem_nil n)) rfl

end M3ApiQuery
